import Mathlib

/-!
Verification of the velophil backend's stateful data plane against its
specification.  The Rust sources are shallowly embedded: pure functions become
Lean functions, the sled key-value store becomes an explicit map from string
keys to stored values, and the ambient clock / UUID generator become explicit
parameters.  Machine integers (`u64`, `i64`, `usize`) are modelled as `Nat`
(none of the modelled code paths can overflow in practice and none relies on
wrap-around).  Serde serialisation is modelled by a tagged value type: bytes
that deserialise as a `VersionedData` record are the `versioned` tag, bytes
that deserialise as a bare payload are the `raw` tag; deserialising a value
under the wrong tag fails, exactly as `serde_json::from_slice` fails on a
mismatched shape.
-/

deriving instance DecidableEq for Except

namespace Velophil

/-! ## Executable string and sorting helpers

Several string primitives of the Lean core library (`String.trim`,
`String.toLower`, `String.isPrefixOf`, the `String` order, `String.splitOn`,
`List.mergeSort`) are compiled by well-founded recursion and therefore do not
reduce inside the kernel.  The embedding uses the structurally recursive
equivalents below so that every definition evaluates on concrete inputs.
They implement the same functions: character-list lexicographic order is the
code-point order, which coincides with the UTF-8 byte order Rust strings and
sled keys are compared by. -/

/-- Lexicographic order on character lists (the `String` order / Rust byte
order, as a computable Bool). -/
def charListLe : List Char → List Char → Bool
  | [], _ => true
  | _ :: _, [] => false
  | a :: as, b :: bs =>
    if a < b then true else if b < a then false else charListLe as bs

/-- String comparison `a ≤ b` used for sled key order and name sorting. -/
def strLeB (a b : String) : Bool := charListLe a.data b.data

/-- Prefix test on strings (Rust `str::starts_with`). -/
def strIsPrefixOf (p s : String) : Bool := p.data.isPrefixOf s.data

/-- Unicode-whitespace trim (Rust `str::trim`) restricted to the ASCII
whitespace of `Char.isWhitespace`, structurally recursive. -/
def strTrim (s : String) : String :=
  String.mk
    (((s.data.dropWhile Char.isWhitespace).reverse.dropWhile
      Char.isWhitespace).reverse)

/-- Lower-casing (Rust `str::to_lowercase`), structurally recursive. -/
def strLower (s : String) : String := String.mk (s.data.map Char.toLower)

/-- Insert into a sorted list (auxiliary to `sortLe`). -/
def insertLe {α : Type} (le : α → α → Bool) (a : α) : List α → List α
  | [] => [a]
  | b :: bs => if le a b then a :: b :: bs else b :: insertLe le a bs

/-- Stable insertion sort, modelling the (stable) `sort`/`sort_by` of Rust
vectors and the ordered iteration of sled. -/
def sortLe {α : Type} (le : α → α → Bool) : List α → List α
  | [] => []
  | a :: as => insertLe le a (sortLe le as)

/-! ## Versioned document store (src/backend/src/main_bloated.rs, AppState) -/

/-- Record stored under the `versioned_` key, mirroring the Rust
`VersionedData<T>` struct (fields `data`, `version`, `updated_at`,
`created_at`; the two timestamps are epoch milliseconds). -/
structure VersionedData (α : Type) where
  data : α
  version : Nat
  updated_at : Nat
  created_at : Nat
deriving Repr, DecidableEq

/-- Bytes stored in the KV engine, tagged by the shape they deserialise to:
`raw d` is the serialisation of a bare payload (the legacy entry), `versioned
v` is the serialisation of a `VersionedData` record. -/
inductive StoredVal (α : Type) where
  | raw (d : α)
  | versioned (v : VersionedData α)
deriving Repr, DecidableEq

/-- The sled database restricted to one process: a map from string keys to
stored values.  `none` means the key is absent. -/
def Db (α : Type) : Type := String → Option (StoredVal α)

/-- Point update of the key-value map, modelling `sled::Db::insert`. -/
def dbInsert {α : Type} (db : Db α) (k : String) (v : StoredVal α) : Db α :=
  fun k' => if k' = k then some v else db k'

/-- Models `sled::Db::remove`: returns `Ok(previous value)` (sled only errors
on I/O faults, which the pure model excludes) together with the new state. -/
def dbRemove {α : Type} (db : Db α) (k : String) :
    Except String (Option (StoredVal α)) × Db α :=
  (Except.ok (db k), fun k' => if k' = k then none else db k')

/-- Deserialisation of a stored value as `VersionedData<T>`
(`serde_json::from_slice::<VersionedData<T>>`): succeeds only on the
`versioned` tag. -/
def decodeVersioned {α : Type} : StoredVal α → Option (VersionedData α)
  | .versioned v => some v
  | .raw _ => none

/-- Deserialisation of a stored value as the bare payload `T`
(`serde_json::from_slice::<T>`): succeeds only on the `raw` tag. -/
def decodeData {α : Type} : StoredVal α → Option α
  | .raw d => some d
  | .versioned _ => none

/-- Errors surfaced by `set_versioned_data` / `get_versioned_data`.  The Rust
code returns `std::io::Error`; the version-conflict error message carries the
presented base version and the current server version. -/
inductive StoreErr where
  | versionConflict (base current : Nat)
  | invalidData
deriving Repr, DecidableEq

/-- The key under which the versioned record for logical key `key` is stored
(Rust: `format!("versioned_\x7b\x7d", key)`). -/
def versionedKey (key : String) : String := "versioned_" ++ key

/-- Embedding of `AppState::set_versioned_data` (main_bloated.rs:3053-3113).
`now` is the value of `Self::current_timestamp()` at the call.  Returns the
function result together with the post-call database; on the error paths the
Rust function returns before touching the store, so the database is returned
unchanged. -/
def set_versioned_data {α : Type} (db : Db α) (key : String) (data : α)
    (base_version : Option Nat) (now : Nat) :
    Except StoreErr (VersionedData α) × Db α :=
  let vkey := versionedKey key
  let step : Except StoreErr (Nat × Nat) :=
    match base_version with
    | some base_ver =>
      match db vkey with
      | some stored =>
        match decodeVersioned stored with
        | some existing =>
          if existing.version ≠ base_ver then
            .error (.versionConflict base_ver existing.version)
          else
            .ok (existing.version + 1, existing.created_at)
        | none => .error .invalidData
      | none => .ok (1, now)
    | none =>
      match db vkey with
      | some stored =>
        match decodeVersioned stored with
        | some existing => .ok (existing.version + 1, existing.created_at)
        | none => .error .invalidData
      | none => .ok (1, now)
  match step with
  | .error e => (.error e, db)
  | .ok (new_version, created_at) =>
    let versioned : VersionedData α :=
      { data := data, version := new_version, updated_at := now,
        created_at := created_at }
    let db1 := dbInsert db vkey (.versioned versioned)
    let db2 := dbInsert db1 key (.raw data)
    (.ok versioned, db2)

/-- Embedding of `AppState::get_versioned_data` (main_bloated.rs:3016-3050).
If only a legacy entry exists it is migrated by a `set_versioned_data` call
with `base_version = None`. -/
def get_versioned_data {α : Type} (db : Db α) (key : String) (now : Nat) :
    Except StoreErr (Option (VersionedData α)) × Db α :=
  let vkey := versionedKey key
  match db vkey with
  | some stored =>
    match decodeVersioned stored with
    | some v => (.ok (some v), db)
    | none => (.error .invalidData, db)
  | none =>
    match db key with
    | some stored =>
      match decodeData stored with
      | some data =>
        match set_versioned_data db key data none now with
        | (.ok v, db') => (.ok (some v), db')
        | (.error e, db') => (.error e, db')
      | none => (.error .invalidData, db)
    | none => (.ok none, db)

/-- The versioned record currently stored for logical key `key`, if the
`versioned_` entry is present and deserialises. -/
def currentVersioned {α : Type} (db : Db α) (key : String) :
    Option (VersionedData α) :=
  (db (versionedKey key)).bind decodeVersioned

/-- Body of the HTTP response of the `upsert_custom_names` handler. -/
inductive UpsertOutcome where
  | ok (version updated_at : Nat)
  | conflict (server_version server_updated_at : Nat)
  | conflictUnknown
  | serverError
deriving Repr, DecidableEq

/-- Embedding of the `upsert_custom_names` handler (main_bloated.rs:3357-3392)
for a named configuration `name`.  On a version-conflict error it re-reads the
current record and answers 409 with the server version and server
`updated_at`. -/
def upsert_custom_names {α : Type} (db : Db α) (name : String) (data : α)
    (base_version : Option Nat) (now : Nat) : UpsertOutcome × Db α :=
  let key := "custom_names_" ++ name
  match set_versioned_data db key data base_version now with
  | (.ok versioned, db') => (.ok versioned.version versioned.updated_at, db')
  | (.error (.versionConflict _ _), db') =>
    match get_versioned_data db' key now with
    | (.ok (some current), db'') =>
      (.conflict current.version current.updated_at, db'')
    | (_, db'') => (.conflictUnknown, db'')
  | (.error .invalidData, db') => (.serverError, db')

/-- Embedding of the `delete_custom_names` handler (main_bloated.rs:3596-3618).
The Rust code sets `deleted` when `db.remove(..).is_ok()`; sled's `remove`
returns `Ok` whether or not the key existed, erring only on I/O faults, so the
returned flag records exactly what `is_ok()` observes in the pure model. -/
def delete_custom_names {α : Type} (db : Db α) (name : String) : Bool × Db α :=
  let key := "custom_names_" ++ name
  let vkey := versionedKey key
  let r1 := dbRemove db vkey
  let deleted1 := r1.1.isOk
  let r2 := dbRemove r1.2 key
  let deleted2 := r2.1.isOk
  (deleted1 || deleted2, r2.2)

/-! ## The tree-based `Database` wrapper (20260101_velophil_svelte/backend/src/db.rs) -/

/-- The sled database as seen through `Database`: named trees (collections)
each mapping keys to serialised values.  Payloads are abstract. -/
def TreeDb (α : Type) : Type := String → String → Option α

/-- Embedding of `Database::get` (db.rs): open the collection's tree and look
the key up. -/
def Database.get {α : Type} (db : TreeDb α) (collection key : String) :
    Option α :=
  db collection key

/-- Embedding of `Database::insert` (db.rs): write the value into the
collection's tree (the fire-and-forget replication hook does not touch the
local store). -/
def Database.insert {α : Type} (db : TreeDb α) (collection key : String)
    (value : α) : TreeDb α :=
  fun c k => if c = collection ∧ k = key then some value else db c k

/-- Embedding of `Database::delete` (db.rs:78-93): `existed` is whether
`tree.remove(key)` returned a previous value. -/
def Database.delete {α : Type} (db : TreeDb α) (collection key : String) :
    Bool × TreeDb α :=
  let existed := (db collection key).isSome
  (existed, fun c k => if c = collection ∧ k = key then none else db c k)

/-! ## Runtime event log (main_bloated.rs, AppState::emit_event / get_runtime_events) -/

/-- Cursor value.  The Rust code stores `base64(STANDARD)` of the ASCII string
`"{ts}:{seq}"`; base64 encoding and decimal rendering round-trip exactly, so
the cursor is modelled as the pair it encodes.  `parse_cursor` on a cursor
produced by `generate_cursor` always succeeds, which is the only way cursors
are produced in the modelled flows. -/
structure Cursor where
  ts : Nat
  seq : Nat
deriving Repr, DecidableEq

/-- Embedding of `AppState::generate_cursor`. -/
def generate_cursor (timestamp sequence : Nat) : Cursor :=
  ⟨timestamp, sequence⟩

/-- Embedding of `AppState::parse_cursor` restricted to well-formed cursor
strings (the only kind reachable in the modelled flows). -/
def parse_cursor (c : Cursor) : Option (Nat × Nat) :=
  some (c.ts, c.seq)

/-- Embedding of the Rust `RuntimeEvent` record; the JSON payload is kept
opaque as a string. -/
structure RuntimeEvent where
  id : String
  ts : Nat
  event_type : String
  payload : String
  cursor : Cursor
deriving Repr, DecidableEq

/-- Key under which an event is persisted:
`format!("runtime_event_\x7b\x7d_\x7b\x7d", timestamp, sequence)`. -/
def event_key (timestamp sequence : Nat) : String :=
  "runtime_event_" ++ Nat.repr timestamp ++ "_" ++ Nat.repr sequence

/-- The slice of the sled store holding the runtime events, as the list of
`(key, deserialised event)` pairs in insertion order, together with the
process-wide `event_sequence` atomic counter. -/
structure EventState where
  store : List (String × RuntimeEvent)
  event_sequence : Nat
deriving Repr, DecidableEq

/-- Embedding of `AppState::emit_event` (main_bloated.rs:3137-3161).  `now` is
`current_timestamp()`, `event_id` the freshly generated UUID;
`fetch_add` returns the pre-increment counter value. -/
def emit_event (st : EventState) (event_id event_type payload : String)
    (now : Nat) : String × EventState :=
  let timestamp := now
  let sequence := st.event_sequence
  let cursor := generate_cursor timestamp sequence
  let event : RuntimeEvent :=
    { id := event_id, ts := timestamp, event_type := event_type,
      payload := payload, cursor := cursor }
  let key := event_key timestamp sequence
  (event_id, { store := st.store ++ [(key, event)],
               event_sequence := st.event_sequence + 1 })

/-- Models `db.scan_prefix("runtime_event_")`: sled iterates the matching keys
in ascending byte order of the key strings. -/
def scanEvents (store : List (String × RuntimeEvent)) :
    List (String × RuntimeEvent) :=
  sortLe (fun a b => strLeB a.1 b.1)
    (store.filter (fun kv => strIsPrefixOf "runtime_event_" kv.1))

/-- Verdict of the optional type filter: `true` means the event is skipped
(`continue` in the Rust loop). -/
def skippedByType (types_filter : Option (List String))
    (event : RuntimeEvent) : Bool :=
  match types_filter with
  | some types => ! types.contains event.event_type
  | none => false

/-- The scan loop of `get_runtime_events`: keep events strictly after the
cursor, apply the type filter, and break once `limit` events are collected
(the length test runs after the push, so `limit = 0` still yields one
event, as in the Rust code). -/
def collectEvents (l : List (String × RuntimeEvent)) (since_ts since_seq : Nat)
    (types_filter : Option (List String)) (limit : Nat)
    (acc : List RuntimeEvent) : List RuntimeEvent :=
  match l with
  | [] => acc
  | (_, event) :: rest =>
    if event.ts > since_ts ∨ (event.ts = since_ts ∧ event.cursor.seq > since_seq) then
      if skippedByType types_filter event then
        collectEvents rest since_ts since_seq types_filter limit acc
      else
        let acc' := acc ++ [event]
        if limit ≤ acc'.length then acc'
        else collectEvents rest since_ts since_seq types_filter limit acc'
    else
      collectEvents rest since_ts since_seq types_filter limit acc

/-- Comparison used by the post-scan `sort_by`: the Rust code compares the
`(ts, seq)` pairs parsed back from the events' own cursor fields, with the
tuple (lexicographic) order. -/
def cursorPairLe (a b : Nat × Nat) : Bool :=
  decide (a.1 < b.1) || (decide (a.1 = b.1) && decide (a.2 ≤ b.2))

/-- The `(ts, seq)` pair parsed from an event's cursor field. -/
def eventPair (e : RuntimeEvent) : Nat × Nat :=
  (e.cursor.ts, e.cursor.seq)

/-- Strict lexicographic order on `(ts, seq)` pairs: the total order in which
events are paginated. -/
def pairLt (a b : Nat × Nat) : Prop :=
  a.1 < b.1 ∨ (a.1 = b.1 ∧ a.2 < b.2)

instance (a b : Nat × Nat) : Decidable (pairLt a b) := by
  unfold pairLt
  infer_instance

/-- The cursor filter of the scan loop, as a predicate on events: event kept
when `(event.ts, event.cursor.seq)` is strictly after the pair `p`. -/
def passesCursor (p : Nat × Nat) (e : RuntimeEvent) : Prop :=
  e.ts > p.1 ∨ (e.ts = p.1 ∧ e.cursor.seq > p.2)

instance (p : Nat × Nat) (e : RuntimeEvent) : Decidable (passesCursor p e) := by
  unfold passesCursor
  infer_instance

/-- Response of `get_runtime_events`. -/
structure RuntimeEventsResponse where
  items : List RuntimeEvent
  next_cursor : Cursor
  has_more : Bool
deriving Repr, DecidableEq

/-- The `(since_ts, since_seq)` pair of `get_runtime_events`: the parsed
cursor, or `(0, 0)` when absent or unparsable. -/
def sincePair : Option Cursor → Nat × Nat
  | some c =>
    match parse_cursor c with
    | some p => p
    | none => (0, 0)
  | none => (0, 0)

/-- Embedding of `AppState::get_runtime_events` (main_bloated.rs:3164-3231).
`now` is `current_timestamp()`, used only for the next-cursor fallback when
no cursor was supplied and no event matched. -/
def get_runtime_events (store : List (String × RuntimeEvent))
    (since_cursor : Option Cursor) (limit : Nat)
    (types_filter : Option (List String)) (now : Nat) :
    RuntimeEventsResponse :=
  let since : Nat × Nat := sincePair since_cursor
  let scanned := scanEvents store
  let events := collectEvents scanned since.1 since.2 types_filter limit []
  let sorted :=
    sortLe (fun a b => cursorPairLe (eventPair a) (eventPair b)) events
  let has_more := sorted.length = limit
  let next_cursor :=
    match sorted.getLast? with
    | some last =>
      match parse_cursor last.cursor with
      | some p => generate_cursor p.1 (p.2 + 1)
      | none => last.cursor
    | none =>
      match since_cursor with
      | some c => c
      | none => generate_cursor now 0
  { items := sorted, next_cursor := next_cursor, has_more := has_more }

/-- Repeatedly call `get_runtime_events` with `since` set to the returned
`next_cursor`, until a call returns no items (with `limit = 1` the final
empty call is also the first one with `has_more = false`).  `fuel` bounds the
iteration. -/
def drainEvents (store : List (String × RuntimeEvent)) (limit : Nat)
    (types_filter : Option (List String)) (now : Nat) :
    Option Cursor → Nat → List RuntimeEvent
  | _, 0 => []
  | cursor, fuel + 1 =>
    let r := get_runtime_events store cursor limit types_filter now
    if r.items.isEmpty then []
    else r.items ++ drainEvents store limit types_filter now (some r.next_cursor) fuel

/-! ## Token service (20260101_velophil_svelte/backend/src/handlers/auth.rs) -/

/-- Token format selector (config.rs `TokenMode`). -/
inductive TokenMode where
  | JwtHmac
  | PasetoV4Local
deriving Repr, DecidableEq

/-- The slice of `AppConfig.security` used by the token service. -/
structure SecurityConfig where
  token_mode : TokenMode
  token_iss : String
  token_aud : String
  token_ttl_seconds : Nat
  auth_token_expiry_hours : Nat
  paseto_v4_local_key_hex : String
  access_token : String
deriving Repr, DecidableEq

/-- The Rust `Claims` struct.  `iat` and `exp` are `i64` epoch seconds; every
modelled scenario stays at non-negative instants, so they are carried as
`Nat`. -/
structure Claims where
  sub : String
  email : String
  roles : List String
  iss : String
  aud : String
  iat : Nat
  exp : Nat
deriving Repr, DecidableEq

/-- Embedding of `default_secret` (auth.rs): the HMAC key bytes, in preference
order.  `hex::decode` (with its fall-back to the raw bytes on invalid hex) is
injective on each branch, so the derived key is modelled by the configured
string itself. -/
def default_secret (cfg : SecurityConfig) : String :=
  if cfg.paseto_v4_local_key_hex ≠ "" then strTrim cfg.paseto_v4_local_key_hex
  else if cfg.access_token ≠ "" then cfg.access_token
  else "quoteflow_default_secret"

/-- The constant JWT header `alg HS256, typ JWT` as serialised by
`make_token_hmac`. -/
def jwt_header : String :=
  "\x7b\"alg\":\"HS256\",\"typ\":\"JWT\"\x7d"

/-- The claims carried by a PASETO v4.local token: registered claims plus the
custom `email` and `roles`.  `Claims::new()` in pasetors initialises
`iat = nbf = now`; `make_token_paseto` then overwrites `iat` and `exp`.
RFC-3339 instants are modelled as epoch seconds. -/
structure PasetoClaims where
  iss : String
  aud : String
  sub : String
  iat : Nat
  nbf : Nat
  exp : Nat
  email : String
  roles : List String
deriving Repr, DecidableEq

/-- A presented bearer token.  `jwt` carries the three dot-joined base64url
segments in structured form, with the signature modelled as the triple it is
computed from (HMAC-SHA-256 is treated as a perfect MAC: a signature matches
exactly when key, header and payload match).  `paseto` carries a v4.local
token as the key it was encrypted under plus its claims (decryption under the
right key recovers the claims; any other key fails authentication).  `plain`
is any other string, e.g. a configured static access token. -/
inductive Token where
  | jwt (header : String) (payload : Claims) (sig : String × String × Claims)
  | paseto (key : String) (pclaims : PasetoClaims)
  | plain (s : String)
deriving Repr, DecidableEq

/-- Embedding of `sign_hs256`: the MAC of `header.payload` under `secret`,
modelled as the determining triple. -/
def sign_hs256 (secret header : String) (payload : Claims) :
    String × String × Claims :=
  (secret, header, payload)

/-- Embedding of `verify_hs256`: split into three segments, recompute the
signature, compare.  A non-JWT token never carries a matching MAC (HMAC
unforgeability), so only the `jwt` form can verify. -/
def verify_hs256 (secret : String) (token : Token) :
    Option (String × Claims) :=
  match token with
  | .jwt h p s => if s = sign_hs256 secret h p then some (h, p) else none
  | _ => none

/-- Embedding of `make_token_hmac` (auth.rs:59-67). -/
def make_token_hmac (cfg : SecurityConfig) (claims : Claims) : Token :=
  let key := default_secret cfg
  .jwt jwt_header claims (sign_hs256 key jwt_header claims)

/-- Embedding of `validate_token_hmac` (auth.rs:69-83).  `now` is
`Utc::now().timestamp()`.  The static-access-token fallback compares the
presented token string with the configured secret; only an opaque string can
match an operator-chosen static token. -/
def validate_token_hmac (cfg : SecurityConfig) (token : Token) (now : Nat) :
    Option Claims :=
  let key := default_secret cfg
  match verify_hs256 key token with
  | some hp =>
    let claims := hp.2
    if claims.exp < now then none
    else if claims.iss ≠ cfg.token_iss ∨ claims.aud ≠ cfg.token_aud then none
    else some claims
  | none =>
    if cfg.access_token ≠ "" ∧ token = .plain cfg.access_token then
      some { sub := "access", email := "access@local", roles := ["admin"],
             iss := cfg.token_iss, aud := cfg.token_aud, iat := now,
             exp := now + cfg.auth_token_expiry_hours * 3600 }
    else none

/-- Embedding of `paseto_key` (auth.rs): reject hex shorter than 64 chars;
`SymmetricKey::<V4>::from` then requires exactly 32 decoded bytes, i.e.
exactly 64 hex chars.  The key is modelled by the trimmed hex string (hex
decoding is injective). -/
def paseto_key (cfg : SecurityConfig) : Option String :=
  let hex := strTrim cfg.paseto_v4_local_key_hex
  if hex.length < 64 then none
  else if hex.length = 64 then some hex
  else none

/-- Embedding of `make_token_paseto` (auth.rs:107-126).  Note that the
caller-supplied `claims.iat` and `claims.exp` are ignored: the token's expiry
is always `now + token_ttl_seconds`. -/
def make_token_paseto (cfg : SecurityConfig) (claims : Claims) (now : Nat) :
    Option Token :=
  match paseto_key cfg with
  | none => none
  | some key =>
    some (.paseto key
      { iss := cfg.token_iss, aud := cfg.token_aud, sub := claims.sub,
        iat := now, nbf := now, exp := now + cfg.token_ttl_seconds,
        email := claims.email, roles := claims.roles })

/-- Embedding of `validate_token_paseto` (auth.rs:128-141).  Decryption
succeeds only under the encryption key; the default
`ClaimsValidationRules::new()` of pasetors then checks that `iat` and `nbf`
are not in the future and that the token is not expired (the boundary instant
is treated as expired; no modelled scenario sits on the boundary).  The
returned `Claims` carry `iat = 0` and `exp = 0`, exactly as the Rust code
builds them. -/
def validate_token_paseto (cfg : SecurityConfig) (token : Token) (now : Nat) :
    Option Claims :=
  match paseto_key cfg with
  | none => none
  | some key =>
    match token with
    | .paseto k p =>
      if k ≠ key then none
      else if now < p.iat ∨ now < p.nbf ∨ p.exp ≤ now then none
      else if p.iss ≠ cfg.token_iss ∨ p.aud ≠ cfg.token_aud then none
      else some { sub := p.sub, email := p.email, roles := p.roles,
                  iss := p.iss, aud := p.aud, iat := 0, exp := 0 }
    | _ => none

/-- Embedding of `make_token` (auth.rs:143-148). -/
def make_token (cfg : SecurityConfig) (claims : Claims) (now : Nat) :
    Option Token :=
  match cfg.token_mode with
  | .JwtHmac => some (make_token_hmac cfg claims)
  | .PasetoV4Local => make_token_paseto cfg claims now

/-- Embedding of `validate_token` (auth.rs:150-155). -/
def validate_token (cfg : SecurityConfig) (token : Token) (now : Nat) :
    Option Claims :=
  match cfg.token_mode with
  | .JwtHmac => validate_token_hmac cfg token now
  | .PasetoV4Local => validate_token_paseto cfg token now

/-- Observable outcome of the `refresh` endpoint: the three 401 refusals, the
500 on token-generation failure, and the 204 that carries the two freshly
issued cookies. -/
inductive RefreshOutcome where
  | noToken
  | invalidToken
  | expired
  | tokenError
  | success (access_token refresh_token : Token)
deriving Repr, DecidableEq

/-- Embedding of the `refresh` handler (auth.rs:431-491).  `refresh_cookie` is
the result of `extract_token(req, REFRESH_COOKIE_NAME)`; `now` is
`Utc::now().timestamp()`. -/
def refresh (cfg : SecurityConfig) (refresh_cookie : Option Token)
    (now : Nat) : RefreshOutcome :=
  match refresh_cookie with
  | none => .noToken
  | some tok =>
    match validate_token cfg tok now with
    | none => .invalidToken
    | some claims =>
      if claims.exp < now then .expired
      else
        let access_claims : Claims :=
          { sub := claims.sub, email := claims.email, roles := claims.roles,
            iss := cfg.token_iss, aud := cfg.token_aud, iat := now,
            exp := now + cfg.token_ttl_seconds }
        match make_token cfg access_claims now with
        | none => .tokenError
        | some new_access =>
          let refresh_claims : Claims :=
            { sub := claims.sub, email := claims.email, roles := claims.roles,
              iss := cfg.token_iss, aud := cfg.token_aud, iat := now,
              exp := now + 7 * 24 * 60 * 60 }
          match make_token cfg refresh_claims now with
          | none => .tokenError
          | some new_refresh => .success new_access new_refresh

/-! ## Replication route table (20260101_velophil_svelte/backend/src/config.rs) -/

/-- The slice of `PgConnConfig` relevant to routing: the optional declared
`targets` set.  The Rust `HashSet<String>` is carried as the list of its
elements; every use below is membership or a per-element push onto a distinct
map key, so the set's iteration order is unobservable through lookups. -/
structure PgConnConfig where
  targets : Option (List String)
deriving Repr, DecidableEq

/-- The `HashMap<String, Vec<usize>>` of routes, as an association list with
pairwise distinct keys (every operation below preserves that). -/
def Routes : Type := List (String × List Nat)

/-- Map lookup (`routes.get(t)`). -/
def routesLookup (m : Routes) (t : String) : Option (List Nat) :=
  (m.find? (fun kv => decide (kv.1 = t))).map (fun kv => kv.2)

/-- Models `routes.insert(t, l)`: replace the binding or add one. -/
def routesInsert (m : Routes) (t : String) (l : List Nat) : Routes :=
  match m with
  | [] => [(t, l)]
  | (k, v) :: rest =>
    if k = t then (k, l) :: rest else (k, v) :: routesInsert rest t l

/-- Models `routes.entry(t).or_default().push(i)`. -/
def entryPush (m : Routes) (t : String) (i : Nat) : Routes :=
  match m with
  | [] => [(t, [i])]
  | (k, v) :: rest =>
    if k = t then (k, v ++ [i]) :: rest else (k, v) :: entryPush rest t i

/-- Models `routes.entry(t).or_default();` (insert an empty vector if the key
is absent). -/
def entryDefault (m : Routes) (t : String) : Routes :=
  match m with
  | [] => [(t, [])]
  | (k, v) :: rest =>
    if k = t then (k, v) :: rest else (k, v) :: entryDefault rest t

/-- Models `Vec::dedup` on an already sorted vector: drop consecutive
duplicates. -/
def dedupSorted : List Nat → List Nat
  | [] => []
  | [a] => [a]
  | a :: b :: rest =>
    if a = b then dedupSorted (b :: rest) else a :: dedupSorted (b :: rest)

/-- The per-value normalisation at the end of the multi-targets branch:
default empty routes to target 0, `sort_unstable`, `dedup`. -/
def finalizeRoute (v : List Nat) : List Nat :=
  let v' := if v.isEmpty then [0] else v
  dedupSorted (sortLe (fun a b => decide (a ≤ b)) v')

/-- The connections that declare a `targets` set, as `(index, set)` pairs in
ascending index order.  The Rust code keeps `targeted_indices : Vec<usize>`
and indexes back into `pg_conns`; pairing each index directly with its
declared set carries the same data. -/
def declaredSets (pg_conns : List PgConnConfig) : List (Nat × List String) :=
  pg_conns.enum.filterMap (fun ic => ic.2.targets.map (fun s => (ic.1, s)))

/-- Embedding of `build_table_routes` (config.rs:343-423). -/
def build_table_routes (pg_conns : List PgConnConfig)
    (tables : List String) : Routes :=
  if pg_conns.isEmpty then []
  else if pg_conns.length = 1 then
    tables.foldl (fun routes t => routesInsert routes t [0]) []
  else
    let any_targets := pg_conns.any (fun c => c.targets.isSome)
    if ¬ any_targets then
      (List.range pg_conns.length).foldl
        (fun routes i =>
          tables.foldl (fun routes t => entryPush routes t i) routes) []
    else
      let targeted := declaredSets pg_conns
      match targeted with
      | [(tgt_i, tgts)] =>
        tables.foldl
          (fun routes t =>
            if tgts.contains t then entryPush routes t tgt_i
            else entryPush routes t 0) []
      | _ =>
        let routes := targeted.foldl
          (fun routes its =>
            its.2.foldl (fun routes name => entryPush routes name its.1)
              routes) []
        let routes := tables.foldl (fun routes t => entryDefault routes t)
          routes
        routes.map (fun kv => (kv.1, finalizeRoute kv.2))

/-! ## Snapshot pruning (20260101_velophil_svelte/backend/src/backup.rs) -/

/-- The characters before the first occurrence of `sep` (auxiliary to
`nameStem`). -/
def takeUntilSep (sep : List Char) : List Char → List Char
  | [] => []
  | c :: cs => if sep.isPrefixOf (c :: cs) then [] else c :: takeUntilSep sep cs

/-- Embedding of the backup name-stem computation of `BackupManager` (the
Rust method returns the substring of the name template before the first
timestamp placeholder; `split(..).next()` always yields the piece before the
first separator occurrence, or the whole string when the separator is
absent). -/
def nameStem (name_template : String) : String :=
  String.mk (takeUntilSep ("\x7b\x7btimestamp\x7d\x7d".data) name_template.data)

/-- Embedding of `BackupManager::prune_old_backups` (backup.rs:99-122) viewed
through the snapshot root's directory listing.  `entries` is the list of names
of the direct child directories (non-directory children are skipped by the
`metadata().is_dir()` test and are not modelled); the result is the listing
after the removals.  The Rust code keeps the children whose names start with
the template's literal prefix (all of them when the prefix is empty), sorts
ascending by name, and removes the oldest until at most `keep` remain. -/
def prune_old_backups (entries : List String) (name_template : String)
    (keep : Nat) : List String :=
  let pfx := nameStem name_template
  let items := sortLe (fun a b => strLeB a b)
    (entries.filter (fun n => (pfx == "") || strIsPrefixOf pfx n))
  let remove_count := items.length - keep
  let removed := items.take remove_count
  entries.filter (fun n => decide (n ∉ removed))

/-! ## Registration role assignment (auth.rs `register`, models/auth_types.rs) -/

/-- The Rust `UserRecord` (models/auth_types.rs). -/
structure UserRecord where
  id : String
  email : String
  password_hash : String
  roles : List String
  created_at : String
deriving Repr, DecidableEq

/-- Embedding of `UserRecord::new_admin`; `fresh_id` is the generated UUID and
`now_rfc3339` the formatted creation instant. -/
def UserRecord.new_admin (fresh_id email password_hash now_rfc3339 : String) :
    UserRecord :=
  { id := fresh_id, email := strLower email, password_hash := password_hash,
    roles := ["admin"], created_at := now_rfc3339 }

/-- Embedding of `UserRecord::new_user`. -/
def UserRecord.new_user (fresh_id email password_hash now_rfc3339 : String) :
    UserRecord :=
  { id := fresh_id, email := strLower email, password_hash := password_hash,
    roles := ["user"], created_at := now_rfc3339 }

/-- Observable outcome of the `register` handler restricted to the identity
store (cookie and token emission is covered by the token-service model). -/
inductive RegisterOutcome where
  | badRequest
  | conflict
  | created (user : UserRecord)
deriving Repr, DecidableEq

/-- Embedding of the `register` handler's identity-store logic
(auth.rs:158-181).  `email_ok` and `pw_ok` are the verdicts of the external
validators `validate_email_strict` and `password_strength` (out-of-scope
collaborators per the spec); `users` is `db.list("users")`;
`password_hash` is the freshly salted Argon2 PHC string.  Returns the
response outcome and the post-state of the users collection. -/
def register (users : List UserRecord) (email_raw : String)
    (email_ok pw_ok : Bool) (password_hash fresh_id now_rfc3339 : String) :
    RegisterOutcome × List UserRecord :=
  let email := strLower (strTrim email_raw)
  if ¬ email_ok then (.badRequest, users)
  else if ¬ pw_ok then (.badRequest, users)
  else if users.any (fun u => decide (u.email = email)) then
    (.conflict, users)
  else
    let user :=
      if users.isEmpty then
        UserRecord.new_admin fresh_id email password_hash now_rfc3339
      else
        UserRecord.new_user fresh_id email password_hash now_rfc3339
    (.created user, users ++ [user])

/-! ## Concrete stores used by witnesses and counterexamples -/

/-- A store holding one versioned document `doc` at version 3 (with its legacy
mirror), used to instantiate hypotheses concretely. -/
def exampleDb1 : Db Nat := fun k =>
  if k = "versioned_doc" then some (.versioned ⟨5, 3, 100, 50⟩)
  else if k = "doc" then some (.raw 5) else none

/-- A store holding the custom-names document `greek` at version 2. -/
def exampleDb2 : Db Nat := fun k =>
  if k = "versioned_custom_names_greek" then some (.versioned ⟨7, 2, 10, 5⟩)
  else if k = "custom_names_greek" then some (.raw 7) else none

/-- A store whose only entry for `doc` is the legacy one (pre-migration
state). -/
def exampleDbLegacy : Db Nat := fun k =>
  if k = "doc" then some (.raw 42) else none

/-- Event store of two events emitted within the same millisecond (both at
`ts = 5`, sequences 0 and 1). -/
def sameTsStore : List (String × RuntimeEvent) :=
  ((emit_event ((emit_event ⟨[], 0⟩ "A" "order" "pa" 5).2)
    "B" "payment" "pb" 5).2).store

/-- Event store of three events with strictly increasing timestamps. -/
def increasingTsStore : List (String × RuntimeEvent) :=
  ((emit_event ((emit_event ((emit_event ⟨[], 0⟩ "A" "order" "pa" 5).2)
    "B" "payment" "pb" 6).2) "C" "order" "pc" 7).2).store

/-- A tree-structured store holding one document in the `custom_names`
collection. -/
def exampleTreeDb : TreeDb Nat := fun c k =>
  if c = "custom_names" ∧ k = "greek" then some 7 else none

/-- A configuration running the PASETO v4.local token format with a valid
64-hex-character key. -/
def pasetoCfg : SecurityConfig :=
  { token_mode := .PasetoV4Local, token_iss := "velophil",
    token_aud := "velophil-app", token_ttl_seconds := 900,
    auth_token_expiry_hours := 24,
    paseto_v4_local_key_hex := String.mk (List.replicate 64 'a'),
    access_token := "" }

/-- A configuration running the HMAC JWT token format. -/
def hmacCfg : SecurityConfig :=
  { token_mode := .JwtHmac, token_iss := "velophil",
    token_aud := "velophil-app", token_ttl_seconds := 900,
    auth_token_expiry_hours := 24, paseto_v4_local_key_hex := "",
    access_token := "static-secret" }

/-- The claims of a refresh token issued at epoch second 1000000 with the
7-day expiry the handlers use. -/
def demoRefreshClaims : Claims :=
  { sub := "u1", email := "u@ex.com", roles := ["user"], iss := "velophil",
    aud := "velophil-app", iat := 1000000, exp := 1604800 }

/-- The PASETO token `make_token` produces for `demoRefreshClaims` at epoch
second 1000000 under `pasetoCfg` (note the token's own expiry is
`now + token_ttl_seconds`, not the claims' 7-day expiry). -/
def demoRefreshToken : Token :=
  .paseto (String.mk (List.replicate 64 'a'))
    { iss := "velophil", aud := "velophil-app", sub := "u1",
      iat := 1000000, nbf := 1000000, exp := 1000900,
      email := "u@ex.com", roles := ["user"] }

/-!
# Theorems
-/

/-- Computation of `set_versioned_data` when no versioned entry exists: the
write succeeds with version 1 and `created_at = updated_at = now`, whatever
`base_version` is. -/
theorem set_versioned_data_eq_of_vkey_none {α : Type} (db : Db α)
    (key : String) (data : α) (base_version : Option Nat) (now : Nat)
    (h : db (versionedKey key) = none) :
    set_versioned_data db key data base_version now =
      (.ok ⟨data, 1, now, now⟩,
       dbInsert (dbInsert db (versionedKey key)
         (.versioned ⟨data, 1, now, now⟩)) key (.raw data)) := by
  unfold set_versioned_data
  cases base_version <;> simp [h]

/-- Computation of `set_versioned_data` when a versioned entry exists and no
base version is supplied. -/
theorem set_versioned_data_eq_nobase {α : Type} (db : Db α) (key : String)
    (data : α) (now : Nat) (s : StoredVal α) (cur : VersionedData α)
    (hs : db (versionedKey key) = some s)
    (hd : decodeVersioned s = some cur) :
    set_versioned_data db key data none now =
      (.ok ⟨data, cur.version + 1, now, cur.created_at⟩,
       dbInsert (dbInsert db (versionedKey key)
         (.versioned ⟨data, cur.version + 1, now, cur.created_at⟩))
         key (.raw data)) := by
  unfold set_versioned_data
  simp [hs, hd]

/-- Computation of `set_versioned_data` when a versioned entry exists and the
supplied base version matches it. -/
theorem set_versioned_data_eq_base_match {α : Type} (db : Db α) (key : String)
    (data : α) (now : Nat) (s : StoredVal α) (cur : VersionedData α)
    (hs : db (versionedKey key) = some s)
    (hd : decodeVersioned s = some cur) :
    set_versioned_data db key data (some cur.version) now =
      (.ok ⟨data, cur.version + 1, now, cur.created_at⟩,
       dbInsert (dbInsert db (versionedKey key)
         (.versioned ⟨data, cur.version + 1, now, cur.created_at⟩))
         key (.raw data)) := by
  unfold set_versioned_data
  simp [hs, hd]

/-- Computation of `set_versioned_data` when a versioned entry exists and the
supplied base version differs: the function errors before writing, returning
the store untouched. -/
theorem set_versioned_data_eq_base_conflict {α : Type} (db : Db α)
    (key : String) (data : α) (b now : Nat) (s : StoredVal α)
    (cur : VersionedData α)
    (hs : db (versionedKey key) = some s)
    (hd : decodeVersioned s = some cur)
    (hne : b ≠ cur.version) :
    set_versioned_data db key data (some b) now =
      (.error (.versionConflict b cur.version), db) := by
  unfold set_versioned_data
  simp [hs, hd, Ne.symm hne]

/-- Computation of `set_versioned_data` when the versioned entry fails to
deserialise. -/
theorem set_versioned_data_eq_invalid {α : Type} (db : Db α) (key : String)
    (data : α) (base_version : Option Nat) (now : Nat) (s : StoredVal α)
    (hs : db (versionedKey key) = some s)
    (hd : decodeVersioned s = none) :
    set_versioned_data db key data base_version now =
      (.error .invalidData, db) := by
  unfold set_versioned_data
  cases base_version <;> simp [hs, hd]

/-- The `versioned_` key of a document never collides with its own legacy
key. -/
theorem versionedKey_ne (key : String) : versionedKey key ≠ key := by
  intro h
  have hl := congrArg String.length h
  rw [versionedKey, String.length_append] at hl
  have h10 : ("versioned_" : String).length = 10 := rfl
  omega

/-- C1.  Every successful `set_versioned_data` write bumps the version by one
over the pre-write versioned entry (or starts at 1 when none existed), stamps
`updated_at` with the write's timestamp — which is at least the pre-write
`updated_at` whenever the clock has not gone backwards since that entry was
written — and preserves `created_at` whenever a prior entry existed, setting
it to `now` only on the first write. -/
theorem set_versioned_data_version_bump {α : Type} (db : Db α) (key : String)
    (data : α) (base_version : Option Nat) (now : Nat) (v : VersionedData α)
    (hok : (set_versioned_data db key data base_version now).1 = .ok v)
    (hclock : ((currentVersioned db key).map VersionedData.updated_at).getD 0
      ≤ now) :
    v.updated_at = now ∧ v.data = data ∧
    ((currentVersioned db key).map VersionedData.updated_at).getD 0
      ≤ v.updated_at ∧
    (∀ cur, currentVersioned db key = some cur →
      v.version = cur.version + 1 ∧ v.created_at = cur.created_at) ∧
    (currentVersioned db key = none → v.version = 1 ∧ v.created_at = now) := by
  rcases hs : db (versionedKey key) with _ | s
  · have hc : currentVersioned db key = none := by
      simp [currentVersioned, hs]
    rw [set_versioned_data_eq_of_vkey_none db key data base_version now hs]
      at hok
    simp only [Except.ok.injEq] at hok
    subst hok
    refine ⟨rfl, rfl, ?_, ?_, fun _ => ⟨rfl, rfl⟩⟩
    · rw [hc] at hclock ⊢; exact hclock
    · intro cur hcur; rw [hc] at hcur; exact absurd hcur (by simp)
  · rcases hd : decodeVersioned s with _ | cur
    · rw [set_versioned_data_eq_invalid db key data base_version now s hs hd]
        at hok
      exact absurd hok (by simp)
    · have hc : currentVersioned db key = some cur := by
        simp [currentVersioned, hs, hd]
      have hmain : v = ⟨data, cur.version + 1, now, cur.created_at⟩ := by
        cases base_version with
        | none =>
          rw [set_versioned_data_eq_nobase db key data now s cur hs hd] at hok
          simpa using hok.symm
        | some b =>
          by_cases hb : b = cur.version
          · subst hb
            rw [set_versioned_data_eq_base_match db key data now s cur hs hd]
              at hok
            simpa using hok.symm
          · rw [set_versioned_data_eq_base_conflict db key data b now s cur
                hs hd hb] at hok
            exact absurd hok (by simp)
      subst hmain
      refine ⟨rfl, rfl, ?_, ?_, ?_⟩
      · rw [hc] at hclock ⊢; exact hclock
      · intro cur' hcur'
        rw [hc] at hcur'
        cases hcur'
        exact ⟨rfl, rfl⟩
      · intro hnone; rw [hc] at hnone; exact absurd hnone (by simp)

/-- Witness for C1: a concrete write over `exampleDb1` (current version 3,
`updated_at` 100) at time 120. -/
theorem set_versioned_data_version_bump_witness :
    ((set_versioned_data exampleDb1 "doc" 9 none 120).1 =
      .ok ⟨9, 4, 120, 50⟩) ∧
    (((currentVersioned exampleDb1 "doc").map
        VersionedData.updated_at).getD 0 ≤ 120) ∧
    ((9 : Nat) = 9 ∧
     (VersionedData.mk 9 4 120 50).updated_at = 120 ∧
     (VersionedData.mk (α := Nat) 9 4 120 50).data = 9 ∧
     ((currentVersioned exampleDb1 "doc").map
        VersionedData.updated_at).getD 0 ≤
       (VersionedData.mk (α := Nat) 9 4 120 50).updated_at ∧
     (∀ cur, currentVersioned exampleDb1 "doc" = some cur →
       (VersionedData.mk (α := Nat) 9 4 120 50).version = cur.version + 1 ∧
       (VersionedData.mk (α := Nat) 9 4 120 50).created_at = cur.created_at) ∧
     (currentVersioned exampleDb1 "doc" = none →
       (VersionedData.mk (α := Nat) 9 4 120 50).version = 1 ∧
       (VersionedData.mk (α := Nat) 9 4 120 50).created_at = 120)) :=
  ⟨by decide, by decide,
   ⟨rfl, (set_versioned_data_version_bump exampleDb1 "doc" 9 none 120
      ⟨9, 4, 120, 50⟩ (by decide) (by decide)).1,
    (set_versioned_data_version_bump exampleDb1 "doc" 9 none 120
      ⟨9, 4, 120, 50⟩ (by decide) (by decide)).2⟩⟩

/-- C2.  For a write carrying `base_version` against a document whose stored
versioned entry is `cur`: a matching base version succeeds; a differing base
version `b` fails with a version conflict naming the current server version
and leaves the store untouched, and the `upsert_custom_names` handler turns
that failure into a 409 carrying the current server version and server
`updated_at`. -/
theorem set_versioned_data_optimistic_concurrency {α : Type} (db : Db α)
    (name : String) (data : α) (b now : Nat) (cur : VersionedData α)
    (hcur : currentVersioned db ("custom_names_" ++ name) = some cur)
    (hb : b ≠ cur.version) :
    ((set_versioned_data db ("custom_names_" ++ name) data
        (some cur.version) now).1 =
      .ok ⟨data, cur.version + 1, now, cur.created_at⟩) ∧
    (set_versioned_data db ("custom_names_" ++ name) data (some b) now =
      (.error (.versionConflict b cur.version), db)) ∧
    (upsert_custom_names db name data (some b) now =
      (.conflict cur.version cur.updated_at, db)) := by
  rcases hs : db (versionedKey ("custom_names_" ++ name)) with _ | s
  · rw [currentVersioned, hs] at hcur; exact absurd hcur (by simp)
  · have hd : decodeVersioned s = some cur := by
      rw [currentVersioned, hs] at hcur; exact hcur
    have hconf := set_versioned_data_eq_base_conflict db
      ("custom_names_" ++ name) data b now s cur hs hd hb
    refine ⟨?_, hconf, ?_⟩
    · rw [set_versioned_data_eq_base_match db ("custom_names_" ++ name) data
        now s cur hs hd]
    · simp only [upsert_custom_names, hconf, get_versioned_data, hs, hd]

/-- Witness for C2: document `greek` of `exampleDb2` is at version 2 with
`updated_at = 10`; a write with base version 2 succeeds, a write with base
version 1 conflicts. -/
theorem set_versioned_data_optimistic_concurrency_witness :
    (currentVersioned exampleDb2 ("custom_names_" ++ "greek") =
      some ⟨7, 2, 10, 5⟩) ∧
    ((1 : Nat) ≠ 2) ∧
    (((set_versioned_data exampleDb2 ("custom_names_" ++ "greek") 9
        (some 2) 20).1 = .ok ⟨9, 3, 20, 5⟩) ∧
     (set_versioned_data exampleDb2 ("custom_names_" ++ "greek") 9
        (some 1) 20 = (.error (.versionConflict 1 2), exampleDb2)) ∧
     (upsert_custom_names exampleDb2 "greek" 9 (some 1) 20 =
        (.conflict 2 10, exampleDb2))) :=
  ⟨by decide, by decide,
   set_versioned_data_optimistic_concurrency exampleDb2 "greek" 9 1 20
     ⟨7, 2, 10, 5⟩ (by decide) (by decide)⟩

/-- On success, the post-state of `set_versioned_data` is the input store with
the versioned entry and the legacy entry both rewritten. -/
theorem set_versioned_data_ok_snd {α : Type} (db : Db α) (key : String)
    (data : α) (base_version : Option Nat) (now : Nat) (v : VersionedData α)
    (hok : (set_versioned_data db key data base_version now).1 = .ok v) :
    (set_versioned_data db key data base_version now).2 =
      dbInsert (dbInsert db (versionedKey key) (.versioned v)) key
        (.raw data) := by
  rcases hs : db (versionedKey key) with _ | s
  · rw [set_versioned_data_eq_of_vkey_none db key data base_version now hs]
      at hok ⊢
    simp only [Except.ok.injEq] at hok
    rw [← hok]
  · rcases hd : decodeVersioned s with _ | cur
    · rw [set_versioned_data_eq_invalid db key data base_version now s hs hd]
        at hok
      exact absurd hok (by simp)
    · cases base_version with
      | none =>
        rw [set_versioned_data_eq_nobase db key data now s cur hs hd]
          at hok ⊢
        simp only [Except.ok.injEq] at hok
        rw [← hok]
      | some bv =>
        by_cases hbv : bv = cur.version
        · subst hbv
          rw [set_versioned_data_eq_base_match db key data now s cur hs hd]
            at hok ⊢
          simp only [Except.ok.injEq] at hok
          rw [← hok]
        · rw [set_versioned_data_eq_base_conflict db key data bv now s cur
            hs hd hbv] at hok
          exact absurd hok (by simp)

/-- C9.  The versioned/legacy pairing: a successful write stores both the
versioned and the legacy entry and touches no other key; the delete handler
removes both entries and touches no other key; reading a key that only has a
legacy entry promotes it to a versioned entry with `version = 1` and
`created_at = updated_at = now`, after which both entries exist. -/
theorem versioned_legacy_pairing {α : Type} (db dbL : Db α)
    (key keyL name : String) (data d : α) (base_version : Option Nat)
    (now : Nat) (v : VersionedData α)
    (hok : (set_versioned_data db key data base_version now).1 = .ok v)
    (hL1 : dbL (versionedKey keyL) = none)
    (hL2 : dbL keyL = some (.raw d)) :
    ((set_versioned_data db key data base_version now).2 (versionedKey key) =
        some (.versioned v) ∧
     (set_versioned_data db key data base_version now).2 key =
        some (.raw data) ∧
     ∀ k, k ≠ key → k ≠ versionedKey key →
       (set_versioned_data db key data base_version now).2 k = db k) ∧
    ((delete_custom_names db name).2
        (versionedKey ("custom_names_" ++ name)) = none ∧
     (delete_custom_names db name).2 ("custom_names_" ++ name) = none ∧
     ∀ k, k ≠ "custom_names_" ++ name →
       k ≠ versionedKey ("custom_names_" ++ name) →
       (delete_custom_names db name).2 k = db k) ∧
    ((get_versioned_data dbL keyL now).1 = .ok (some ⟨d, 1, now, now⟩) ∧
     (get_versioned_data dbL keyL now).2 (versionedKey keyL) =
        some (.versioned ⟨d, 1, now, now⟩) ∧
     (get_versioned_data dbL keyL now).2 keyL = some (.raw d)) := by
  have hsnd := set_versioned_data_ok_snd db key data base_version now v hok
  have hget : get_versioned_data dbL keyL now =
      (.ok (some ⟨d, 1, now, now⟩),
       dbInsert (dbInsert dbL (versionedKey keyL)
         (.versioned ⟨d, 1, now, now⟩)) keyL (.raw d)) := by
    simp only [get_versioned_data, hL1, hL2, decodeData]
    rw [set_versioned_data_eq_of_vkey_none dbL keyL d none now hL1]
  refine ⟨⟨?_, ?_, ?_⟩, ⟨?_, ?_, ?_⟩, ?_, ?_, ?_⟩
  · rw [hsnd]; simp [dbInsert, versionedKey_ne key]
  · rw [hsnd]; simp [dbInsert]
  · intro k hk hkv
    rw [hsnd]
    simp [dbInsert, hk, hkv]
  · simp [delete_custom_names, dbRemove, versionedKey_ne]
  · simp [delete_custom_names, dbRemove, versionedKey_ne]
  · intro k hk hkv
    simp [delete_custom_names, dbRemove, hk, hkv]
  · rw [hget]
  · rw [hget]; simp [dbInsert, versionedKey_ne keyL]
  · rw [hget]; simp [dbInsert]

/-- Witness for C9: a successful write on `exampleDb1` and the legacy-only
store `exampleDbLegacy`. -/
theorem versioned_legacy_pairing_witness :
    ((set_versioned_data exampleDb1 "doc" 9 none 120).1 =
      .ok ⟨9, 4, 120, 50⟩) ∧
    (exampleDbLegacy (versionedKey "doc") = none) ∧
    (exampleDbLegacy "doc" = some (.raw 42)) ∧
    (((set_versioned_data exampleDb1 "doc" 9 none 120).2
        (versionedKey "doc") = some (.versioned ⟨9, 4, 120, 50⟩) ∧
      (set_versioned_data exampleDb1 "doc" 9 none 120).2 "doc" =
        some (.raw 9) ∧
      ∀ k, k ≠ "doc" → k ≠ versionedKey "doc" →
        (set_versioned_data exampleDb1 "doc" 9 none 120).2 k =
          exampleDb1 k) ∧
     ((delete_custom_names exampleDb1 "greek").2
        (versionedKey ("custom_names_" ++ "greek")) = none ∧
      (delete_custom_names exampleDb1 "greek").2
        ("custom_names_" ++ "greek") = none ∧
      ∀ k, k ≠ "custom_names_" ++ "greek" →
        k ≠ versionedKey ("custom_names_" ++ "greek") →
        (delete_custom_names exampleDb1 "greek").2 k = exampleDb1 k) ∧
     ((get_versioned_data exampleDbLegacy "doc" 120).1 =
        .ok (some ⟨42, 1, 120, 120⟩) ∧
      (get_versioned_data exampleDbLegacy "doc" 120).2
        (versionedKey "doc") = some (.versioned ⟨42, 1, 120, 120⟩) ∧
      (get_versioned_data exampleDbLegacy "doc" 120).2 "doc" =
        some (.raw 42))) :=
  ⟨by decide, by decide, by decide,
   versioned_legacy_pairing exampleDb1 exampleDbLegacy "doc" "doc" "greek"
     9 42 none 120 ⟨9, 4, 120, 50⟩ (by decide) (by decide) (by decide)⟩

/-- C10.  The register handler assigns roles by arrival order: a registration
that goes through while the users collection is empty creates the user with
roles `["admin"]`; any registration that goes through while at least one user
record exists creates the user with roles `["user"]`. -/
theorem register_roles_by_arrival_order (users : List UserRecord)
    (email_raw password_hash fresh_id now_rfc3339 : String) (u : UserRecord)
    (hcreated : (register users email_raw true true password_hash fresh_id
      now_rfc3339).1 = .created u) :
    (users = [] → u.roles = ["admin"]) ∧
    (users ≠ [] → u.roles = ["user"]) := by
  constructor
  · intro hnil
    subst hnil
    simp only [register, not_true, if_false, List.any_nil, List.isEmpty_nil,
      if_true, Bool.false_eq_true] at hcreated
    simp only [RegisterOutcome.created.injEq] at hcreated
    rw [← hcreated]
    rfl
  · intro hne
    by_cases hdup :
        (users.any fun x => decide (x.email = strLower (strTrim email_raw))) = true
    · simp [register, hdup] at hcreated
    · rw [Bool.not_eq_true] at hdup
      have hni : users.isEmpty = false := by
        cases users with
        | nil => exact absurd rfl hne
        | cons a l => rfl
      simp only [register, not_true, if_false, hdup, hni,
        Bool.false_eq_true, if_false, RegisterOutcome.created.injEq]
        at hcreated
      rw [← hcreated]
      rfl

/-- Witness for C10: the first registered user becomes admin. -/
theorem register_roles_by_arrival_order_witness :
    ((register ([] : List UserRecord) "U@Ex.com" true true "phc" "id1"
        "2026-01-01T00:00:00Z").1 =
      .created ⟨"id1", "u@ex.com", "phc", ["admin"], "2026-01-01T00:00:00Z"⟩) ∧
    (([] : List UserRecord) = [] →
      (UserRecord.mk "id1" "u@ex.com" "phc" ["admin"]
        "2026-01-01T00:00:00Z").roles = ["admin"]) ∧
    (([] : List UserRecord) ≠ [] →
      (UserRecord.mk "id1" "u@ex.com" "phc" ["admin"]
        "2026-01-01T00:00:00Z").roles = ["user"]) :=
  ⟨by decide,
   register_roles_by_arrival_order [] "U@Ex.com" "phc" "id1"
     "2026-01-01T00:00:00Z" _ (by decide)⟩

/-- C8 (divergence record).  `Database::delete` of db.rs does distinguish a
no-op from a removal — deleting an existing document twice returns
`existed = true` then `existed = false`, and a subsequent get returns `None`.
The `delete_custom_names` endpoint, however, reports `deleted` from
`remove(..).is_ok()`, which also holds when the key was absent: the second
delete of the same document again answers `deleted` instead of the dead
not-found branch, so the endpoint's result does not distinguish a no-op. -/
theorem delete_twice_divergence :
    ((Database.delete exampleTreeDb "custom_names" "greek").1 = true) ∧
    ((Database.delete (Database.delete exampleTreeDb "custom_names"
        "greek").2 "custom_names" "greek").1 = false) ∧
    (Database.get (Database.delete exampleTreeDb "custom_names" "greek").2
        "custom_names" "greek" = none) ∧
    ((delete_custom_names exampleDb2 "greek").1 = true) ∧
    ((delete_custom_names exampleDb2 "greek").2 "versioned_custom_names_greek"
        = none) ∧
    ((delete_custom_names exampleDb2 "greek").2 "custom_names_greek"
        = none) ∧
    ((delete_custom_names (delete_custom_names exampleDb2 "greek").2
        "greek").1 = true) := by
  refine ⟨by decide, by decide, by decide, by decide, by decide, by decide,
    by decide⟩

/-- C4 (divergence record).  Under the PASETO format, a refresh request
presenting a token that is valid and far from its actual expiry is refused
with the `Refresh token expired` answer: `validate_token_paseto` returns the
claims with `exp = 0`, so the handler's `claims.exp < now` test always fires.
The conjuncts record that the presented token is exactly what `make_token`
issues, that it still validates, and that `refresh` nevertheless answers
`expired`. -/
theorem refresh_paseto_rejects_valid_token :
    (make_token pasetoCfg demoRefreshClaims 1000000 =
      some demoRefreshToken) ∧
    ((validate_token pasetoCfg demoRefreshToken 1000001).isSome = true) ∧
    (refresh pasetoCfg (some demoRefreshToken) 1000001 = .expired) := by
  refine ⟨by decide, by decide, by decide⟩

/-- C5 counterexample.  In PASETO mode, validating a freshly issued token
10 seconds after issuance (well within the 900-second TTL, with matching
issuer and audience) returns claims whose `exp` is 0, not the issued claims'
`exp = 1604800`: `validate(issue(C))` differs from `C` in the `exp` field. -/
theorem validate_paseto_drops_exp :
    (make_token pasetoCfg demoRefreshClaims 1000000 =
      some demoRefreshToken) ∧
    (validate_token pasetoCfg demoRefreshToken 1000010 =
      some ⟨"u1", "u@ex.com", ["user"], "velophil", "velophil-app", 0, 0⟩) ∧
    (demoRefreshClaims.exp = 1604800) ∧
    ((0 : Nat) ≠ 1604800) := by
  refine ⟨by decide, by decide, by decide, by decide⟩

/-- C5 (amended).  Within `token_ttl_seconds` of issuance and with matching
issuer and audience, the HMAC JWT format round-trips the claims exactly; the
PASETO format round-trips `sub`, `email`, `roles`, `iss` and `aud` but
returns `iat = 0` and `exp = 0`. -/
theorem token_roundtrip (cfg : SecurityConfig) (C : Claims)
    (now_issue now_val : Nat)
    (hiss : C.iss = cfg.token_iss) (haud : C.aud = cfg.token_aud)
    (hexp : now_val ≤ C.exp) (hmono : now_issue ≤ now_val)
    (httl : now_val < now_issue + cfg.token_ttl_seconds) :
    (cfg.token_mode = .JwtHmac →
      ∃ t, make_token cfg C now_issue = some t ∧
        validate_token cfg t now_val = some C) ∧
    (cfg.token_mode = .PasetoV4Local →
      ∀ t, make_token cfg C now_issue = some t →
        validate_token cfg t now_val =
          some { sub := C.sub, email := C.email, roles := C.roles,
                 iss := C.iss, aud := C.aud, iat := 0, exp := 0 }) := by
  constructor
  · intro hmode
    refine ⟨make_token_hmac cfg C, by simp [make_token, hmode], ?_⟩
    simp only [validate_token, hmode, validate_token_hmac, make_token_hmac,
      verify_hs256, if_pos rfl]
    simp [Nat.not_lt.mpr hexp, hiss, haud]
  · intro hmode t hmk
    simp only [make_token, hmode, make_token_paseto] at hmk
    rcases hpk : paseto_key cfg with _ | key
    · rw [hpk] at hmk; exact absurd hmk (by simp)
    · rw [hpk] at hmk
      simp only [Option.some.injEq] at hmk
      subst hmk
      simp only [validate_token, hmode, validate_token_paseto, hpk]
      have h1 : ¬ (now_val < now_issue) := Nat.not_lt.mpr hmono
      have h2 : ¬ (now_issue + cfg.token_ttl_seconds ≤ now_val) :=
        Nat.not_le.mpr httl
      simp [h1, h2, hiss, haud]

/-- Witness for C5's amended round-trip: a concrete HMAC configuration and a
validation 10 seconds after issuance. -/
theorem token_roundtrip_witness :
    (demoRefreshClaims.iss = hmacCfg.token_iss) ∧
    (demoRefreshClaims.aud = hmacCfg.token_aud) ∧
    ((1000010 : Nat) ≤ demoRefreshClaims.exp) ∧
    ((1000000 : Nat) ≤ 1000010) ∧
    ((1000010 : Nat) < 1000000 + hmacCfg.token_ttl_seconds) ∧
    ((hmacCfg.token_mode = .JwtHmac →
      ∃ t, make_token hmacCfg demoRefreshClaims 1000000 = some t ∧
        validate_token hmacCfg t 1000010 = some demoRefreshClaims) ∧
     (hmacCfg.token_mode = .PasetoV4Local →
      ∀ t, make_token hmacCfg demoRefreshClaims 1000000 = some t →
        validate_token hmacCfg t 1000010 =
          some { sub := demoRefreshClaims.sub,
                 email := demoRefreshClaims.email,
                 roles := demoRefreshClaims.roles,
                 iss := demoRefreshClaims.iss,
                 aud := demoRefreshClaims.aud, iat := 0, exp := 0 })) :=
  ⟨by decide, by decide, by decide, by decide, by decide,
   token_roundtrip hmacCfg demoRefreshClaims 1000000 1000010 (by decide)
     (by decide) (by decide) (by decide) (by decide)⟩

/-- Totality of the character-list order. -/
theorem charListLe_total (a b : List Char) :
    charListLe a b = true ∨ charListLe b a = true := by
  induction a generalizing b with
  | nil => exact Or.inl rfl
  | cons x xs ih =>
    cases b with
    | nil => exact Or.inr rfl
    | cons y ys =>
      rcases lt_trichotomy x y with h | h | h
      · exact Or.inl (by simp [charListLe, h])
      · subst h
        rcases ih ys with h' | h'
        · exact Or.inl (by simp [charListLe, lt_irrefl, h'])
        · exact Or.inr (by simp [charListLe, lt_irrefl, h'])
      · exact Or.inr (by simp [charListLe, h])

/-- Transitivity of the character-list order. -/
theorem charListLe_trans (a b c : List Char)
    (hab : charListLe a b = true) (hbc : charListLe b c = true) :
    charListLe a c = true := by
  induction a generalizing b c with
  | nil => rfl
  | cons x xs ih =>
    cases b with
    | nil => simp [charListLe] at hab
    | cons y ys =>
      cases c with
      | nil => simp [charListLe] at hbc
      | cons z zs =>
        simp only [charListLe] at hab hbc ⊢
        by_cases hxy : x < y
        · have hyz : y < z ∨ y = z := by
            by_cases h1 : y < z
            · exact Or.inl h1
            · by_cases h2 : z < y
              · simp [h1, h2] at hbc
              · exact Or.inr (le_antisymm (not_lt.mp h2) (not_lt.mp h1))
          have hxz : x < z := by
            rcases hyz with h | h
            · exact lt_trans hxy h
            · exact h ▸ hxy
          simp [hxz]
        · by_cases hyx : y < x
          · simp [hxy, hyx] at hab
          · have hxyeq : x = y := le_antisymm (not_lt.mp hyx) (not_lt.mp hxy)
            subst hxyeq
            simp only [lt_irrefl, if_false] at hab
            by_cases hyz : x < z
            · simp [hyz]
            · by_cases hzy : z < x
              · simp [hyz, hzy] at hbc
              · have : x = z := le_antisymm (not_lt.mp hzy) (not_lt.mp hyz)
                subst this
                simp only [lt_irrefl, if_false] at hbc ⊢
                exact ih ys zs hab hbc

/-- Antisymmetry of the character-list order. -/
theorem charListLe_antisymm (a b : List Char)
    (hab : charListLe a b = true) (hba : charListLe b a = true) :
    a = b := by
  induction a generalizing b with
  | nil =>
    cases b with
    | nil => rfl
    | cons y ys => simp [charListLe] at hba
  | cons x xs ih =>
    cases b with
    | nil => simp [charListLe] at hab
    | cons y ys =>
      simp only [charListLe] at hab hba
      by_cases hxy : x < y
      · simp [hxy, lt_asymm hxy] at hba
      · by_cases hyx : y < x
        · simp [hxy, hyx] at hab
        · have hx : x = y := le_antisymm (not_lt.mp hyx) (not_lt.mp hxy)
          subst hx
          simp only [lt_irrefl, if_false] at hab hba
          rw [ih ys hab hba]

/-- Totality of the string order. -/
theorem strLeB_total (a b : String) :
    strLeB a b = true ∨ strLeB b a = true :=
  charListLe_total a.data b.data

/-- Transitivity of the string order. -/
theorem strLeB_trans (a b c : String) (hab : strLeB a b = true)
    (hbc : strLeB b c = true) : strLeB a c = true :=
  charListLe_trans a.data b.data c.data hab hbc

/-- `insertLe` permutes the inserted element into the list. -/
theorem insertLe_perm {α : Type} (le : α → α → Bool) (a : α) (l : List α) :
    (insertLe le a l).Perm (a :: l) := by
  induction l with
  | nil => exact List.Perm.refl _
  | cons b bs ih =>
    simp only [insertLe]
    by_cases h : le a b = true
    · rw [if_pos h]
    · rw [if_neg h]
      exact ((ih.cons b).trans (List.Perm.swap a b bs))

/-- `sortLe` permutes its input. -/
theorem sortLe_perm {α : Type} (le : α → α → Bool) (l : List α) :
    (sortLe le l).Perm l := by
  induction l with
  | nil => exact List.Perm.refl _
  | cons a as ih =>
    exact (insertLe_perm le a (sortLe le as)).trans (ih.cons a)

/-- Inserting into a sorted list keeps it sorted, for a total transitive
comparison. -/
theorem insertLe_sorted {α : Type} (le : α → α → Bool)
    (htotal : ∀ a b, le a b = true ∨ le b a = true)
    (htrans : ∀ a b c, le a b = true → le b c = true → le a c = true)
    (a : α) (l : List α)
    (hl : l.Pairwise (fun x y => le x y = true)) :
    (insertLe le a l).Pairwise (fun x y => le x y = true) := by
  induction l with
  | nil => simp [insertLe]
  | cons b bs ih =>
    rcases List.pairwise_cons.mp hl with ⟨hb, hbs⟩
    simp only [insertLe]
    by_cases h : le a b = true
    · rw [if_pos h]
      refine List.pairwise_cons.mpr ⟨?_, hl⟩
      intro x hx
      rcases List.mem_cons.mp hx with rfl | hx
      · exact h
      · exact htrans a b x h (hb x hx)
    · rw [if_neg h]
      refine List.pairwise_cons.mpr ⟨?_, ih hbs⟩
      intro x hx
      have hx' := (insertLe_perm le a bs).mem_iff.mp hx
      rcases List.mem_cons.mp hx' with rfl | hx'
      · rcases htotal x b with h' | h'
        · exact absurd h' h
        · exact h'
      · exact hb x hx'

/-- `sortLe` sorts, for a total transitive comparison. -/
theorem sortLe_sorted {α : Type} (le : α → α → Bool)
    (htotal : ∀ a b, le a b = true ∨ le b a = true)
    (htrans : ∀ a b c, le a b = true → le b c = true → le a c = true)
    (l : List α) :
    (sortLe le l).Pairwise (fun x y => le x y = true) := by
  induction l with
  | nil => simp [sortLe]
  | cons a as ih => exact insertLe_sorted le htotal htrans a _ ih

/-- Core retention property of "filter by a predicate, sort ascending, remove
all but the last `keep`": among the matching elements exactly the
`min keep _` greatest survive, every removed matching element sits strictly
below every survivor, and non-matching elements are untouched. -/
theorem keep_largest_core {α : Type} [DecidableEq α] (le : α → α → Bool)
    (htotal : ∀ a b, le a b = true ∨ le b a = true)
    (htrans : ∀ a b c, le a b = true → le b c = true → le a c = true)
    (entries : List α) (p : α → Bool) (keep : Nat) (hnd : entries.Nodup) :
    (((entries.filter (fun n => decide (n ∉
        (sortLe le (entries.filter p)).take
          ((sortLe le (entries.filter p)).length - keep)))).filter p).length
      = min keep (entries.filter p).length) ∧
    (∀ x ∈ entries.filter p,
      x ∉ (entries.filter (fun n => decide (n ∉
        (sortLe le (entries.filter p)).take
          ((sortLe le (entries.filter p)).length - keep)))).filter p →
      ∀ z ∈ (entries.filter (fun n => decide (n ∉
        (sortLe le (entries.filter p)).take
          ((sortLe le (entries.filter p)).length - keep)))).filter p,
        le x z = true ∧ x ≠ z) ∧
    (∀ z ∈ (entries.filter (fun n => decide (n ∉
        (sortLe le (entries.filter p)).take
          ((sortLe le (entries.filter p)).length - keep)))).filter p,
      z ∈ entries.filter p) ∧
    (∀ x ∈ entries, p x = false →
      x ∈ entries.filter (fun n => decide (n ∉
        (sortLe le (entries.filter p)).take
          ((sortLe le (entries.filter p)).length - keep)))) := by
  set M := entries.filter p with hMdef
  set items := sortLe le M with hitemsdef
  set rc := items.length - keep with hrcdef
  set removed := items.take rc with hremdef
  set post := entries.filter (fun n => decide (n ∉ removed)) with hpostdef
  have hperm : items.Perm M := sortLe_perm le M
  have hsort : items.Pairwise (fun x y => le x y = true) :=
    sortLe_sorted le htotal htrans M
  have hndM : M.Nodup := hnd.filter p
  have hndI : items.Nodup := hperm.nodup_iff.mpr hndM
  have hsplit : removed ++ items.drop rc = items := List.take_append_drop rc items
  have hdisj : removed.Disjoint (items.drop rc) := by
    have h := hndI
    conv at h => rw [← hsplit]
    exact (List.nodup_append.mp h).2.2
  have hpostfilter : post.filter p = M.filter (fun n => decide (n ∉ removed)) := by
    rw [hpostdef, hMdef, List.filter_filter, List.filter_filter]
    exact List.filter_congr (fun a _ => by rw [Bool.and_comm])
  have h2 : removed.filter (fun n => decide (n ∉ removed)) = [] := by
    rw [List.filter_eq_nil_iff]
    intro a ha
    simp [ha]
  have h3 : (items.drop rc).filter (fun n => decide (n ∉ removed)) =
      items.drop rc := by
    rw [List.filter_eq_self]
    intro a ha
    simp only [decide_eq_true_eq]
    exact fun hc => hdisj hc ha
  have h4 : items.filter (fun n => decide (n ∉ removed)) = items.drop rc := by
    conv_lhs => rw [← hsplit]
    rw [List.filter_append, h2, h3, List.nil_append]
  have hKperm : (post.filter p).Perm (items.drop rc) := by
    rw [hpostfilter]
    exact ((hperm.filter _).symm).trans (h4 ▸ List.Perm.refl _)
  have hcross : ∀ u ∈ removed, ∀ v ∈ items.drop rc, le u v = true := by
    have hs2 := hsort
    conv at hs2 => rw [← hsplit]
    exact fun u hu v hv => (List.pairwise_append.mp hs2).2.2 u hu v hv
  refine ⟨?_, ?_, ?_, ?_⟩
  · rw [hKperm.length_eq, List.length_drop, hrcdef, hperm.length_eq]
    omega
  · intro x hxM hxK z hzK
    have hxI : x ∈ items := hperm.mem_iff.mpr hxM
    have hzD : z ∈ items.drop rc := hKperm.mem_iff.mp hzK
    have hxR : x ∈ removed := by
      conv at hxI => rw [← hsplit]
      rcases List.mem_append.mp hxI with h | h
      · exact h
      · exact absurd (hKperm.mem_iff.mpr h) hxK
    exact ⟨hcross x hxR z hzD, fun he => hdisj hxR (he ▸ hzD)⟩
  · intro z hzK
    exact hperm.mem_iff.mp (List.drop_subset rc items (hKperm.mem_iff.mp hzK))
  · intro x hx hpx
    refine List.mem_filter.mpr ⟨hx, ?_⟩
    simp only [decide_eq_true_eq]
    intro hxR
    have hxM : x ∈ M := hperm.mem_iff.mp (List.take_subset rc items hxR)
    have := (List.mem_filter.mp hxM).2
    rw [hpx] at this
    exact absurd this (by simp)

/-- C7.  After a prune with retention `keep`, at most `keep` snapshot
directories whose names begin with the template's literal prefix remain; the
surviving matching names are exactly the `min keep _` lexicographically
largest of the matching names present before the prune (every pruned matching
name sits strictly below every survivor), and children not matching the
prefix are untouched.  Since every backup cycle ends in this prune, the bound
holds after any number of cycles. -/
theorem prune_old_backups_keeps_largest (entries : List String)
    (tmpl : String) (keep : Nat) (hnd : entries.Nodup) :
    (((prune_old_backups entries tmpl keep).filter
        (fun n => ((nameStem tmpl == "") ||
          strIsPrefixOf (nameStem tmpl) n))).length
      = min keep ((entries.filter (fun n => ((nameStem tmpl == "") ||
          strIsPrefixOf (nameStem tmpl) n))).length)) ∧
    (((prune_old_backups entries tmpl keep).filter
        (fun n => ((nameStem tmpl == "") ||
          strIsPrefixOf (nameStem tmpl) n))).length ≤ keep) ∧
    (∀ x ∈ entries.filter (fun n => ((nameStem tmpl == "") ||
          strIsPrefixOf (nameStem tmpl) n)),
      x ∉ (prune_old_backups entries tmpl keep).filter
        (fun n => ((nameStem tmpl == "") ||
          strIsPrefixOf (nameStem tmpl) n)) →
      ∀ z ∈ (prune_old_backups entries tmpl keep).filter
        (fun n => ((nameStem tmpl == "") ||
          strIsPrefixOf (nameStem tmpl) n)),
        strLeB x z = true ∧ x ≠ z) ∧
    (∀ z ∈ (prune_old_backups entries tmpl keep).filter
        (fun n => ((nameStem tmpl == "") ||
          strIsPrefixOf (nameStem tmpl) n)),
      z ∈ entries.filter (fun n => ((nameStem tmpl == "") ||
          strIsPrefixOf (nameStem tmpl) n))) ∧
    (∀ x ∈ entries, ((nameStem tmpl == "") ||
          strIsPrefixOf (nameStem tmpl) x) = false →
      x ∈ prune_old_backups entries tmpl keep) := by
  have h := keep_largest_core (fun a b => strLeB a b)
    (fun a b => strLeB_total a b) (fun a b c => strLeB_trans a b c)
    entries
    (fun n => ((nameStem tmpl == "") ||
      strIsPrefixOf (nameStem tmpl) n)) keep hnd
  exact ⟨h.1, h.1 ▸ Nat.min_le_left _ _, h.2.1, h.2.2.1, h.2.2.2⟩

/-- Witness for C7: pruning four children (three snapshots, one foreign
directory) with retention 2 keeps the two largest snapshot names and the
foreign child. -/
theorem prune_old_backups_keeps_largest_witness :
    (["snap_1", "snap_3", "snap_2", "other"] :
      List String).Nodup ∧
    (((prune_old_backups ["snap_1", "snap_3", "snap_2", "other"]
        "snap_\x7b\x7btimestamp\x7d\x7d" 2).filter
        (fun n => ((nameStem "snap_\x7b\x7btimestamp\x7d\x7d" == "") ||
          strIsPrefixOf (nameStem "snap_\x7b\x7btimestamp\x7d\x7d" ) n)))
      = ["snap_3", "snap_2"]) ∧
    (prune_old_backups ["snap_1", "snap_3", "snap_2", "other"]
        "snap_\x7b\x7btimestamp\x7d\x7d" 2 = ["snap_3", "snap_2", "other"]) ∧
    (((prune_old_backups ["snap_1", "snap_3", "snap_2", "other"]
        "snap_\x7b\x7btimestamp\x7d\x7d" 2).filter
        (fun n => ((nameStem "snap_\x7b\x7btimestamp\x7d\x7d" == "") ||
          strIsPrefixOf (nameStem "snap_\x7b\x7btimestamp\x7d\x7d" ) n))).length
      ≤ 2) :=
  ⟨by decide, by decide, by decide,
   (prune_old_backups_keeps_largest ["snap_1", "snap_3", "snap_2", "other"]
     "snap_\x7b\x7btimestamp\x7d\x7d" 2 (by decide)).2.1⟩

/-- Lookup through a cons cell of the route map. -/
theorem routesLookup_cons (k : String) (v : List Nat) (rest : Routes)
    (t' : String) :
    routesLookup ((k, v) :: rest) t' =
      if k = t' then some v else routesLookup rest t' := by
  by_cases h : k = t' <;> simp [routesLookup, List.find?_cons, h]

/-- Lookup after a map insert. -/
theorem routesLookup_routesInsert (m : Routes) (t : String) (l : List Nat)
    (t' : String) :
    routesLookup (routesInsert m t l) t' =
      if t' = t then some l else routesLookup m t' := by
  induction m with
  | nil =>
    by_cases h : t' = t
    · subst h; simp [routesInsert, routesLookup_cons]
    · simp [routesInsert, routesLookup_cons, Ne.symm h, h, routesLookup]
  | cons kv rest ih =>
    obtain ⟨k, v⟩ := kv
    by_cases hk : k = t
    · subst hk
      simp only [routesInsert, if_pos rfl]
      by_cases h' : t' = k
      · subst h'; simp [routesLookup_cons]
      · simp [routesLookup_cons, Ne.symm h', h']
    · simp only [routesInsert, if_neg hk]
      rw [routesLookup_cons, routesLookup_cons, ih]
      by_cases hkt : k = t'
      · subst hkt
        simp [hk]
      · simp [hkt]

/-- Lookup after an `entry(..).or_default().push(i)`. -/
theorem routesLookup_entryPush (m : Routes) (t : String) (i : Nat)
    (t' : String) :
    routesLookup (entryPush m t i) t' =
      if t' = t then some ((routesLookup m t').getD [] ++ [i])
      else routesLookup m t' := by
  induction m with
  | nil =>
    by_cases h : t' = t
    · subst h; simp [entryPush, routesLookup_cons, routesLookup]
    · simp [entryPush, routesLookup_cons, Ne.symm h, h, routesLookup]
  | cons kv rest ih =>
    obtain ⟨k, v⟩ := kv
    by_cases hk : k = t
    · subst hk
      simp only [entryPush, if_pos rfl]
      by_cases h' : t' = k
      · subst h'; simp [routesLookup_cons]
      · simp [routesLookup_cons, Ne.symm h', h']
    · simp only [entryPush, if_neg hk]
      rw [routesLookup_cons, routesLookup_cons, ih]
      by_cases hkt : k = t'
      · subst hkt
        simp [hk]
      · simp [hkt]

/-- Lookup after an `entry(..).or_default()`. -/
theorem routesLookup_entryDefault (m : Routes) (t : String) (t' : String) :
    routesLookup (entryDefault m t) t' =
      if t' = t then some ((routesLookup m t').getD [])
      else routesLookup m t' := by
  induction m with
  | nil =>
    by_cases h : t' = t
    · subst h; simp [entryDefault, routesLookup_cons, routesLookup]
    · simp [entryDefault, routesLookup_cons, Ne.symm h, h, routesLookup]
  | cons kv rest ih =>
    obtain ⟨k, v⟩ := kv
    by_cases hk : k = t
    · subst hk
      simp only [entryDefault, if_pos rfl]
      by_cases h' : t' = k
      · subst h'; simp [routesLookup_cons]
      · simp [routesLookup_cons, Ne.symm h', h']
    · simp only [entryDefault, if_neg hk]
      rw [routesLookup_cons, routesLookup_cons, ih]
      by_cases hkt : k = t'
      · subst hkt
        simp [hk]
      · simp [hkt]

/-- Lookup after mapping a function over all route values. -/
theorem routesLookup_map_values (m : Routes) (f : List Nat → List Nat)
    (t' : String) :
    routesLookup (m.map (fun kv => (kv.1, f kv.2))) t' =
      (routesLookup m t').map f := by
  induction m with
  | nil => simp [routesLookup]
  | cons kv rest ih =>
    obtain ⟨k, v⟩ := kv
    simp only [List.map_cons]
    rw [routesLookup_cons, routesLookup_cons]
    by_cases hk : k = t'
    · simp [hk]
    · simp [hk, ih]

/-- Lookup after inserting `[0]` for every table (the single-target branch). -/
theorem routesLookup_foldl_insert (tables : List String) (l : List Nat)
    (m : Routes) (t' : String) :
    routesLookup (tables.foldl (fun r t => routesInsert r t l) m) t' =
      if t' ∈ tables then some l else routesLookup m t' := by
  induction tables generalizing m with
  | nil => simp
  | cons a rest ih =>
    simp only [List.foldl_cons]
    rw [ih]
    by_cases hmem : t' ∈ rest
    · simp [hmem]
    · rw [routesLookup_routesInsert]
      by_cases ha : t' = a
      · simp [hmem, ha]
      · simp [hmem, ha]

/-- Lookup after pushing index `g t` for every table `t` of a duplicate-free
list. -/
theorem routesLookup_foldl_entryPush (tables : List String)
    (g : String → Nat) (m : Routes) (t' : String) (hnd : tables.Nodup) :
    routesLookup (tables.foldl (fun r t => entryPush r t (g t)) m) t' =
      if t' ∈ tables then some ((routesLookup m t').getD [] ++ [g t'])
      else routesLookup m t' := by
  induction tables generalizing m with
  | nil => simp
  | cons a rest ih =>
    rcases List.nodup_cons.mp hnd with ⟨hna, hndr⟩
    simp only [List.foldl_cons]
    rw [ih _ hndr]
    by_cases hmem : t' ∈ rest
    · have hne : t' ≠ a := fun he => hna (he ▸ hmem)
      rw [routesLookup_entryPush]
      simp [hmem, hne]
    · rw [routesLookup_entryPush]
      by_cases ha : t' = a
      · subst ha; simp [hmem]
      · simp [hmem, ha]

/-- Lookup after defaulting every table of the list. -/
theorem routesLookup_foldl_entryDefault (tables : List String) (m : Routes)
    (t' : String) :
    routesLookup (tables.foldl (fun r t => entryDefault r t) m) t' =
      if t' ∈ tables then some ((routesLookup m t').getD [])
      else routesLookup m t' := by
  induction tables generalizing m with
  | nil => simp
  | cons a rest ih =>
    simp only [List.foldl_cons]
    rw [ih]
    by_cases hmem : t' ∈ rest
    · rw [routesLookup_entryDefault]
      by_cases ha : t' = a <;> simp [hmem, ha]
    · rw [routesLookup_entryDefault]
      by_cases ha : t' = a
      · subst ha; simp [hmem]
      · simp [hmem, ha]

/-- Lookup after pushing each index for every table its declared set lists
(the first loop of the multi-targets branch). -/
theorem routesLookup_foldl_sets (targeted : List (Nat × List String))
    (m : Routes) (t' : String)
    (hsets : ∀ its ∈ targeted, its.2.Nodup) :
    routesLookup (targeted.foldl
        (fun r its => its.2.foldl (fun r name => entryPush r name its.1) r)
        m) t' =
      if targeted.any (fun its => decide (t' ∈ its.2)) then
        some ((routesLookup m t').getD [] ++
          ((targeted.filter (fun its => decide (t' ∈ its.2))).map
            (fun its => its.1)))
      else routesLookup m t' := by
  induction targeted generalizing m with
  | nil => simp
  | cons its rest ih =>
    obtain ⟨i, names⟩ := its
    have hnames : names.Nodup := hsets ⟨i, names⟩ (List.mem_cons_self _ _)
    have hrest : ∀ p ∈ rest, p.2.Nodup :=
      fun p hp => hsets p (List.mem_cons_of_mem _ hp)
    simp only [List.foldl_cons]
    rw [ih _ hrest]
    have hinner := routesLookup_foldl_entryPush names (fun _ => i) m t' hnames
    by_cases hmem : t' ∈ names
    · rw [if_pos (by simpa using hmem)] at hinner
      by_cases hany : rest.any (fun p => decide (t' ∈ p.2)) = true
      · rw [if_pos hany, hinner]
        simp [List.any_cons, hany, List.filter_cons, hmem,
          List.append_assoc]
      · rw [if_neg hany, hinner]
        have hfilter : rest.filter (fun p => decide (t' ∈ p.2)) = [] := by
          rw [List.filter_eq_nil_iff]
          intro p hp
          have := (List.any_eq_false (p := fun p => decide (t' ∈ p.2))).mp
            (Bool.not_eq_true _ ▸ hany) p hp
          simpa using this
        simp [List.any_cons, hany, hmem, List.filter_cons, hfilter]
    · rw [if_neg (by simpa using hmem)] at hinner
      rw [hinner]
      by_cases hany : rest.any (fun p => decide (t' ∈ p.2)) = true
      · rw [if_pos hany]
        simp [List.any_cons, hany, hmem, List.filter_cons]
      · rw [if_neg hany]
        simp [List.any_cons, hany, hmem]

/-- Membership is preserved by `dedupSorted`. -/
theorem dedupSorted_mem (l : List Nat) (a : Nat) :
    a ∈ dedupSorted l ↔ a ∈ l := by
  induction l with
  | nil => simp [dedupSorted]
  | cons b tail ih =>
    cases tail with
    | nil => simp [dedupSorted]
    | cons c rest =>
      by_cases h : b = c
      · subst h
        rw [show dedupSorted (b :: b :: rest) = dedupSorted (b :: rest) from
          by simp [dedupSorted]]
        rw [ih]
        simp
      · simp only [dedupSorted, if_neg h]
        simp only [List.mem_cons] at ih ⊢
        rw [ih]

/-- `dedupSorted` of a `≤`-sorted list is `<`-sorted. -/
theorem dedupSorted_pairwise_lt (l : List Nat)
    (hl : l.Pairwise (· ≤ ·)) :
    (dedupSorted l).Pairwise (· < ·) := by
  induction l with
  | nil => simp [dedupSorted]
  | cons b tail ih =>
    cases tail with
    | nil => simp [dedupSorted]
    | cons c rest =>
      rcases List.pairwise_cons.mp hl with ⟨hb, htail⟩
      by_cases h : b = c
      · subst h
        rw [show dedupSorted (b :: b :: rest) = dedupSorted (b :: rest) from
          by simp [dedupSorted]]
        exact ih htail
      · simp only [dedupSorted, if_neg h]
        refine List.pairwise_cons.mpr ⟨?_, ih htail⟩
        intro x hx
        have hx' : x ∈ c :: rest := (dedupSorted_mem _ _).mp hx
        have hbc : b < c := lt_of_le_of_ne (hb c (by simp)) h
        rcases List.mem_cons.mp hx' with rfl | hxr
        · exact hbc
        · exact lt_of_lt_of_le hbc ((List.pairwise_cons.mp htail).1 x hxr)

/-- `finalizeRoute` yields a strictly increasing route list. -/
theorem finalizeRoute_pairwise (v : List Nat) :
    (finalizeRoute v).Pairwise (· < ·) := by
  apply dedupSorted_pairwise_lt
  have h := sortLe_sorted (fun a b => decide (a ≤ b))
    (fun a b => by rcases Nat.le_total a b with h | h <;> simp [h])
    (fun a b c hab hbc => by
      simp only [decide_eq_true_eq] at hab hbc ⊢
      omega)
    (if v.isEmpty then [0] else v)
  exact h.imp (by simp)

/-- Membership in a finalized route. -/
theorem finalizeRoute_mem (v : List Nat) (a : Nat) :
    a ∈ finalizeRoute v ↔ a ∈ (if v.isEmpty then [0] else v) := by
  rw [finalizeRoute]
  rw [dedupSorted_mem]
  exact (sortLe_perm _ _).mem_iff

/-- Members of `enumFrom` project to members of the list. -/
theorem snd_mem_of_mem_enumFrom {α : Type} :
    ∀ (l : List α) (n : Nat) (p : Nat × α), p ∈ l.enumFrom n → p.2 ∈ l := by
  intro l
  induction l with
  | nil => intro n p h; simp [List.enumFrom] at h
  | cons a as ih =>
    intro n p h
    simp only [List.enumFrom] at h
    rcases List.mem_cons.mp h with rfl | h
    · simp
    · exact List.mem_cons_of_mem _ (ih (n + 1) p h)

/-- When no connection declares targets, the declared-sets list is empty. -/
theorem declaredSets_eq_nil (pg_conns : List PgConnConfig)
    (h : ∀ c ∈ pg_conns, c.targets = none) :
    declaredSets pg_conns = [] := by
  rw [declaredSets, List.filterMap_eq_nil_iff]
  intro p hp
  have hc : p.2 ∈ pg_conns := snd_mem_of_mem_enumFrom pg_conns 0 p hp
  rw [h p.2 hc]
  rfl

/-- Lookup after the all-tables-to-all-targets double fold. -/
theorem routesLookup_foldl_range (n : Nat) (tables : List String)
    (hnd : tables.Nodup) (m : Routes) (t' : String) (hn : 0 < n) :
    routesLookup ((List.range n).foldl
        (fun r i => tables.foldl (fun r t => entryPush r t i) r) m) t' =
      if t' ∈ tables then
        some ((routesLookup m t').getD [] ++ List.range n)
      else routesLookup m t' := by
  induction n generalizing m with
  | zero => omega
  | succ k ih =>
    rw [List.range_succ, List.foldl_append]
    simp only [List.foldl_cons, List.foldl_nil]
    rw [routesLookup_foldl_entryPush tables (fun _ => k) _ t' hnd]
    rcases Nat.eq_zero_or_pos k with hk0 | hkpos
    · subst hk0
      by_cases hmem : t' ∈ tables <;>
        simp [hmem, List.range_succ]
    · rw [ih _ hkpos]
      by_cases hmem : t' ∈ tables
      · simp [hmem, List.range_succ, List.append_assoc]
      · simp [hmem]

/-- C6.  The replication route table satisfies the configuration table of the
spec: no targets — no routes; one target — every table to target 0; several
targets none declaring a set — every table to every target; several targets
with exactly one declared set `S` at index `j` — `t ∈ S` to `j`, all other
tables to target 0; several targets with two or more declared sets — `t` to
every index whose set lists `t`, to target 0 when listed nowhere, the route
list strictly increasing (sorted and duplicate-free). -/
theorem build_table_routes_spec (pg_conns : List PgConnConfig)
    (tables : List String) (hnd : tables.Nodup)
    (hsets : ∀ its ∈ declaredSets pg_conns, its.2.Nodup) :
    (pg_conns = [] → build_table_routes pg_conns tables = []) ∧
    (pg_conns.length = 1 → ∀ t ∈ tables,
      routesLookup (build_table_routes pg_conns tables) t = some [0]) ∧
    (2 ≤ pg_conns.length → (∀ c ∈ pg_conns, c.targets = none) →
      ∀ t ∈ tables, routesLookup (build_table_routes pg_conns tables) t =
        some (List.range pg_conns.length)) ∧
    (∀ j S, 2 ≤ pg_conns.length → declaredSets pg_conns = [(j, S)] →
      ∀ t ∈ tables, routesLookup (build_table_routes pg_conns tables) t =
        some (if S.contains t then [j] else [0])) ∧
    (2 ≤ pg_conns.length → 2 ≤ (declaredSets pg_conns).length →
      ∀ t ∈ tables, ∃ l,
        routesLookup (build_table_routes pg_conns tables) t = some l ∧
        l.Pairwise (· < ·) ∧
        (∀ i, i ∈ l ↔
          ((∃ its ∈ declaredSets pg_conns, its.1 = i ∧ t ∈ its.2) ∨
           ((∀ its ∈ declaredSets pg_conns, t ∉ its.2) ∧ i = 0)))) := by
  refine ⟨?_, ?_, ?_, ?_, ?_⟩
  · intro h
    subst h
    rfl
  · intro hlen t ht
    have hne : pg_conns.isEmpty = false := by
      cases pg_conns with
      | nil => simp at hlen
      | cons a l => rfl
    have hb : build_table_routes pg_conns tables =
        tables.foldl (fun routes t => routesInsert routes t [0]) [] := by
      simp [build_table_routes, hne, hlen]
    rw [hb, routesLookup_foldl_insert]
    simp [ht]
  · intro hlen hall t ht
    have hne : pg_conns.isEmpty = false := by
      cases pg_conns with
      | nil => simp at hlen
      | cons a l => rfl
    have hlen1 : ¬ pg_conns.length = 1 := by omega
    have hany : pg_conns.any (fun c => c.targets.isSome) = false := by
      rw [List.any_eq_false]
      intro c hc
      rw [hall c hc]
      simp
    have hb : build_table_routes pg_conns tables =
        (List.range pg_conns.length).foldl
          (fun routes i =>
            tables.foldl (fun routes t => entryPush routes t i) routes)
          [] := by
      simp [build_table_routes, hne, hlen1, hany]
    rw [hb, routesLookup_foldl_range _ _ hnd _ _ (by omega)]
    simp [ht, routesLookup]
  · intro j S hlen hds t ht
    have hne : pg_conns.isEmpty = false := by
      cases pg_conns with
      | nil => simp at hlen
      | cons a l => rfl
    have hlen1 : ¬ pg_conns.length = 1 := by omega
    have hany : pg_conns.any (fun c => c.targets.isSome) = true := by
      by_contra hc
      rw [Bool.not_eq_true] at hc
      have hnil : declaredSets pg_conns = [] := by
        refine declaredSets_eq_nil _ (fun c hcm => ?_)
        have := List.any_eq_false.mp hc c hcm
        cases htg : c.targets with
        | none => rfl
        | some s => rw [htg] at this; simp at this
      rw [hds] at hnil
      simp at hnil
    have hb : build_table_routes pg_conns tables =
        tables.foldl
          (fun routes t =>
            if S.contains t then entryPush routes t j
            else entryPush routes t 0) [] := by
      simp [build_table_routes, hne, hlen1, hany, hds]
    have hb2 : (fun (routes : Routes) t =>
        if S.contains t then entryPush routes t j
        else entryPush routes t 0) =
        (fun (routes : Routes) t =>
          entryPush routes t (if S.contains t then j else 0)) := by
      funext r u
      by_cases h : u ∈ S <;> simp [h]
    rw [hb, hb2, routesLookup_foldl_entryPush tables
      (fun u => if S.contains u then j else 0) [] t hnd]
    simp only [ht, if_pos, routesLookup]
    by_cases hcon : t ∈ S <;> simp [hcon]
  · intro hlen hdl t ht
    have hne : pg_conns.isEmpty = false := by
      cases pg_conns with
      | nil => simp at hlen
      | cons a l => rfl
    have hlen1 : ¬ pg_conns.length = 1 := by omega
    have hanyT : pg_conns.any (fun c => c.targets.isSome) = true := by
      by_contra hc
      rw [Bool.not_eq_true] at hc
      have hnil : declaredSets pg_conns = [] := by
        refine declaredSets_eq_nil _ (fun c hcm => ?_)
        have := List.any_eq_false.mp hc c hcm
        cases htg : c.targets with
        | none => rfl
        | some s => rw [htg] at this; simp at this
      rw [hnil] at hdl
      simp at hdl
    rcases hds : declaredSets pg_conns with _ | ⟨a, rest⟩
    · rw [hds] at hdl; simp at hdl
    rcases rest with _ | ⟨b, rest2⟩
    · rw [hds] at hdl; simp at hdl
    have hsets' : ∀ its ∈ (a :: b :: rest2 : List (Nat × List String)),
        its.2.Nodup := hds ▸ hsets
    have hb : build_table_routes pg_conns tables =
        (tables.foldl (fun routes t => entryDefault routes t)
          ((a :: b :: rest2).foldl
            (fun r its =>
              its.2.foldl (fun r name => entryPush r name its.1) r) [])).map
          (fun kv => (kv.1, finalizeRoute kv.2)) := by
      simp only [build_table_routes, hne, hlen1, hanyT, hds]
      rfl
    rw [hb, routesLookup_map_values, routesLookup_foldl_entryDefault]
    simp only [ht, if_pos]
    rw [routesLookup_foldl_sets _ _ _ hsets']
    by_cases hanyt : (a :: b :: rest2).any (fun its => decide (t ∈ its.2))
        = true
    · obtain ⟨w, hw, hwt'⟩ := List.any_eq_true.mp hanyt
      have hwt : t ∈ w.2 := by simpa using hwt'
      refine ⟨finalizeRoute
        (((a :: b :: rest2).filter
          (fun its => decide (t ∈ its.2))).map (fun its => its.1)),
        ?_, finalizeRoute_pairwise _, ?_⟩
      · simp [hanyt, routesLookup]
      · intro i
        rw [finalizeRoute_mem]
        have hne2 : (((a :: b :: rest2).filter
            (fun its => decide (t ∈ its.2))).map
            (fun its => its.1)).isEmpty = false := by
          have : w ∈ (a :: b :: rest2).filter
              (fun its => decide (t ∈ its.2)) :=
            List.mem_filter.mpr ⟨hw, by simpa using hwt⟩
          rcases hfe : (a :: b :: rest2).filter
              (fun its => decide (t ∈ its.2)) with _ | ⟨x, xs⟩
          · rw [hfe] at this; simp at this
          · rw [hfe]; rfl
        rw [if_neg (by simp [hne2])]
        constructor
        · intro hi
          rcases List.mem_map.mp hi with ⟨its, hits, hfst⟩
          rcases List.mem_filter.mp hits with ⟨hmem, hdec⟩
          exact Or.inl ⟨its, hmem, hfst, by simpa using hdec⟩
        · intro hi
          rcases hi with ⟨its, hmem, hfst, hin⟩ | ⟨hnone, _⟩
          · exact List.mem_map.mpr ⟨its,
              List.mem_filter.mpr ⟨hmem, by simpa using hin⟩, hfst⟩
          · exact absurd hwt (hnone w hw)
    · rw [Bool.not_eq_true] at hanyt
      have hall : ∀ its ∈ (a :: b :: rest2 : List (Nat × List String)),
          t ∉ its.2 := by
        intro its hits
        have := List.any_eq_false.mp hanyt its hits
        simpa using this
      refine ⟨[0], ?_, by simp, ?_⟩
      · rw [hanyt]
        simp [routesLookup]
        rfl
      · intro i
        constructor
        · intro hi
          simp only [List.mem_singleton] at hi
          exact Or.inr ⟨hall, hi⟩
        · intro hi
          rcases hi with ⟨its, hmem, _, hin⟩ | ⟨_, hi0⟩
          · exact absurd hin (hall its hmem)
          · simp [hi0]

/-- Witness for C6: three targets, the first two declaring sets. -/
theorem build_table_routes_spec_witness :
    (["a", "b", "c"] : List String).Nodup ∧
    (∀ its ∈ declaredSets
        [⟨some ["a", "b"]⟩, ⟨some ["b"]⟩, (⟨none⟩ : PgConnConfig)],
      its.2.Nodup) ∧
    (([⟨some ["a", "b"]⟩, ⟨some ["b"]⟩, (⟨none⟩ : PgConnConfig)] = [] →
      build_table_routes
        [⟨some ["a", "b"]⟩, ⟨some ["b"]⟩, (⟨none⟩ : PgConnConfig)]
        ["a", "b", "c"] = []) ∧
     (([⟨some ["a", "b"]⟩, ⟨some ["b"]⟩,
         (⟨none⟩ : PgConnConfig)] : List PgConnConfig).length = 1 →
      ∀ t ∈ ["a", "b", "c"],
        routesLookup (build_table_routes
          [⟨some ["a", "b"]⟩, ⟨some ["b"]⟩, (⟨none⟩ : PgConnConfig)]
          ["a", "b", "c"]) t = some [0]) ∧
     (2 ≤ ([⟨some ["a", "b"]⟩, ⟨some ["b"]⟩,
         (⟨none⟩ : PgConnConfig)] : List PgConnConfig).length →
      (∀ c ∈ [⟨some ["a", "b"]⟩, ⟨some ["b"]⟩, (⟨none⟩ : PgConnConfig)],
        c.targets = none) →
      ∀ t ∈ ["a", "b", "c"],
        routesLookup (build_table_routes
          [⟨some ["a", "b"]⟩, ⟨some ["b"]⟩, (⟨none⟩ : PgConnConfig)]
          ["a", "b", "c"]) t =
          some (List.range ([⟨some ["a", "b"]⟩, ⟨some ["b"]⟩,
            (⟨none⟩ : PgConnConfig)] : List PgConnConfig).length)) ∧
     (∀ j S, 2 ≤ ([⟨some ["a", "b"]⟩, ⟨some ["b"]⟩,
         (⟨none⟩ : PgConnConfig)] : List PgConnConfig).length →
      declaredSets [⟨some ["a", "b"]⟩, ⟨some ["b"]⟩,
        (⟨none⟩ : PgConnConfig)] = [(j, S)] →
      ∀ t ∈ ["a", "b", "c"],
        routesLookup (build_table_routes
          [⟨some ["a", "b"]⟩, ⟨some ["b"]⟩, (⟨none⟩ : PgConnConfig)]
          ["a", "b", "c"]) t =
          some (if S.contains t then [j] else [0])) ∧
     (2 ≤ ([⟨some ["a", "b"]⟩, ⟨some ["b"]⟩,
         (⟨none⟩ : PgConnConfig)] : List PgConnConfig).length →
      2 ≤ (declaredSets [⟨some ["a", "b"]⟩, ⟨some ["b"]⟩,
        (⟨none⟩ : PgConnConfig)]).length →
      ∀ t ∈ ["a", "b", "c"], ∃ l,
        routesLookup (build_table_routes
          [⟨some ["a", "b"]⟩, ⟨some ["b"]⟩, (⟨none⟩ : PgConnConfig)]
          ["a", "b", "c"]) t = some l ∧
        l.Pairwise (· < ·) ∧
        (∀ i, i ∈ l ↔
          ((∃ its ∈ declaredSets [⟨some ["a", "b"]⟩, ⟨some ["b"]⟩,
              (⟨none⟩ : PgConnConfig)], its.1 = i ∧ t ∈ its.2) ∨
           ((∀ its ∈ declaredSets [⟨some ["a", "b"]⟩, ⟨some ["b"]⟩,
              (⟨none⟩ : PgConnConfig)], t ∉ its.2) ∧ i = 0))))) :=
  ⟨by decide, by decide,
   build_table_routes_spec
     [⟨some ["a", "b"]⟩, ⟨some ["b"]⟩, (⟨none⟩ : PgConnConfig)]
     ["a", "b", "c"] (by decide) (by decide)⟩

/-- Strict pair order is transitive. -/
theorem pairLt_trans {a b c : Nat × Nat} (hab : pairLt a b)
    (hbc : pairLt b c) : pairLt a c := by
  obtain ⟨a1, a2⟩ := a
  obtain ⟨b1, b2⟩ := b
  obtain ⟨c1, c2⟩ := c
  simp only [pairLt] at hab hbc ⊢
  omega

/-- Strict pair order is irreflexive. -/
theorem pairLt_irrefl (a : Nat × Nat) : ¬ pairLt a a := by
  obtain ⟨a1, a2⟩ := a
  simp only [pairLt]
  omega

/-- The tuple comparison used by `sort_by` is total. -/
theorem cursorPairLe_total (a b : Nat × Nat) :
    cursorPairLe a b = true ∨ cursorPairLe b a = true := by
  obtain ⟨a1, a2⟩ := a
  obtain ⟨b1, b2⟩ := b
  simp only [cursorPairLe, Bool.or_eq_true, Bool.and_eq_true,
    decide_eq_true_eq]
  omega

/-- The tuple comparison used by `sort_by` is transitive. -/
theorem cursorPairLe_trans (a b c : Nat × Nat)
    (hab : cursorPairLe a b = true) (hbc : cursorPairLe b c = true) :
    cursorPairLe a c = true := by
  obtain ⟨a1, a2⟩ := a
  obtain ⟨b1, b2⟩ := b
  obtain ⟨c1, c2⟩ := c
  simp only [cursorPairLe, Bool.or_eq_true, Bool.and_eq_true,
    decide_eq_true_eq] at hab hbc ⊢
  omega

/-- Weak pair order plus distinctness gives the strict order. -/
theorem pairLt_of_le_ne {a b : Nat × Nat} (hle : cursorPairLe a b = true)
    (hne : a ≠ b) : pairLt a b := by
  obtain ⟨a1, a2⟩ := a
  obtain ⟨b1, b2⟩ := b
  simp only [cursorPairLe, Bool.or_eq_true, Bool.and_eq_true,
    decide_eq_true_eq] at hle
  simp only [Ne, Prod.mk.injEq, not_and_or] at hne
  simp only [pairLt]
  omega

/-- The weak order below the successor seq: `a ≤ b` implies
`a < (b.ts, b.seq + 1)`. -/
theorem pairLt_succ_of_le {a b : Nat × Nat} (hle : cursorPairLe a b = true) :
    pairLt a (b.1, b.2 + 1) := by
  obtain ⟨a1, a2⟩ := a
  obtain ⟨b1, b2⟩ := b
  simp only [cursorPairLe, Bool.or_eq_true, Bool.and_eq_true,
    decide_eq_true_eq] at hle
  simp only [pairLt]
  omega

/-- Every event collected by the scan loop was either already in the
accumulator or sits in the scanned list and passes the cursor filter. -/
theorem collectEvents_mem :
    ∀ (l : List (String × RuntimeEvent)) (ts0 seq0 : Nat)
      (tf : Option (List String)) (lim : Nat) (acc : List RuntimeEvent)
      (e : RuntimeEvent), e ∈ collectEvents l ts0 seq0 tf lim acc →
      e ∈ acc ∨ ((∃ k, (k, e) ∈ l) ∧ passesCursor (ts0, seq0) e) := by
  intro l ts0 seq0 tf lim
  induction l with
  | nil =>
    intro acc e he
    exact Or.inl (by simpa [collectEvents] using he)
  | cons kv rest ih =>
    obtain ⟨k, ev⟩ := kv
    intro acc e he
    simp only [collectEvents] at he
    by_cases hpass : ev.ts > ts0 ∨ (ev.ts = ts0 ∧ ev.cursor.seq > seq0)
    · rw [if_pos hpass] at he
      by_cases hskip : skippedByType tf ev = true
      · rw [if_pos hskip] at he
        rcases ih acc e he with h | ⟨⟨k', hk⟩, hp⟩
        · exact Or.inl h
        · exact Or.inr ⟨⟨k', List.mem_cons_of_mem _ hk⟩, hp⟩
      · rw [if_neg hskip] at he
        by_cases hlim : lim ≤ (acc ++ [ev]).length
        · rw [if_pos hlim] at he
          rcases List.mem_append.mp he with h | h
          · exact Or.inl h
          · simp only [List.mem_singleton] at h
            subst h
            exact Or.inr ⟨⟨k, List.mem_cons_self _ _⟩, hpass⟩
        · rw [if_neg hlim] at he
          rcases ih (acc ++ [ev]) e he with h | ⟨⟨k', hk⟩, hp⟩
          · rcases List.mem_append.mp h with h' | h'
            · exact Or.inl h'
            · simp only [List.mem_singleton] at h'
              subst h'
              exact Or.inr ⟨⟨k, List.mem_cons_self _ _⟩, hpass⟩
          · exact Or.inr ⟨⟨k', List.mem_cons_of_mem _ hk⟩, hp⟩
    · rw [if_neg hpass] at he
      rcases ih acc e he with h | ⟨⟨k', hk⟩, hp⟩
      · exact Or.inl h
      · exact Or.inr ⟨⟨k', List.mem_cons_of_mem _ hk⟩, hp⟩

/-- The scan loop appends to the accumulator a sublist of the scanned
events. -/
theorem collectEvents_sublist :
    ∀ (l : List (String × RuntimeEvent)) (ts0 seq0 : Nat)
      (tf : Option (List String)) (lim : Nat) (acc : List RuntimeEvent),
      ∃ s, collectEvents l ts0 seq0 tf lim acc = acc ++ s ∧
        s.Sublist (l.map (fun kv => kv.2)) := by
  intro l ts0 seq0 tf lim
  induction l with
  | nil =>
    intro acc
    exact ⟨[], by simp [collectEvents], List.nil_sublist _⟩
  | cons kv rest ih =>
    obtain ⟨k, ev⟩ := kv
    intro acc
    simp only [collectEvents]
    by_cases hpass : ev.ts > ts0 ∨ (ev.ts = ts0 ∧ ev.cursor.seq > seq0)
    · rw [if_pos hpass]
      by_cases hskip : skippedByType tf ev = true
      · rw [if_pos hskip]
        obtain ⟨s, hs, hsub⟩ := ih acc
        exact ⟨s, hs, hsub.cons _⟩
      · rw [if_neg hskip]
        by_cases hlim : lim ≤ (acc ++ [ev]).length
        · rw [if_pos hlim]
          exact ⟨[ev], rfl, (List.nil_sublist _).cons₂ ev⟩
        · rw [if_neg hlim]
          obtain ⟨s, hs, hsub⟩ := ih (acc ++ [ev])
          refine ⟨ev :: s, ?_, hsub.cons₂ ev⟩
          rw [hs, List.append_assoc]
          rfl
    · rw [if_neg hpass]
      obtain ⟨s, hs, hsub⟩ := ih acc
      exact ⟨s, hs, hsub.cons _⟩

/-- The last element of a list that is pairwise related bounds every
element. -/
theorem getLast?_mem_velophil {α : Type} :
    ∀ (l : List α) (x : α), l.getLast? = some x → x ∈ l := by
  intro l
  induction l with
  | nil => intro x hx; simp at hx
  | cons a rest ih =>
    intro x hx
    cases rest with
    | nil =>
      simp only [List.getLast?_singleton, Option.some.injEq] at hx
      subst hx
      simp
    | cons b rs =>
      rw [List.getLast?_cons_cons] at hx
      exact List.mem_cons_of_mem _ (ih x hx)

/-- In a pairwise-related list, every element is the last one or related to
it. -/
theorem pairwise_rel_getLast {α : Type} (R : α → α → Prop) :
    ∀ (l : List α), l.Pairwise R → ∀ x, l.getLast? = some x →
      ∀ e ∈ l, e = x ∨ R e x := by
  intro l
  induction l with
  | nil => intro _ x hx; simp at hx
  | cons a rest ih =>
    intro hp x hx e he
    rcases List.pairwise_cons.mp hp with ⟨ha, hrest⟩
    cases rest with
    | nil =>
      simp only [List.getLast?_singleton, Option.some.injEq] at hx
      subst hx
      simp only [List.mem_singleton] at he
      exact Or.inl he
    | cons b rs =>
      rw [List.getLast?_cons_cons] at hx
      rcases List.mem_cons.mp he with rfl | he'
      · exact Or.inr (ha x (getLast?_mem_velophil _ x hx))
      · exact ih hrest x hx e he'

/-- Sorted with distinct pairs gives strictly increasing pairs. -/
theorem pairwise_pairLt_of_sorted (l : List RuntimeEvent)
    (hle : l.Pairwise
      (fun a b => cursorPairLe (eventPair a) (eventPair b) = true))
    (hnd : (l.map eventPair).Nodup) :
    l.Pairwise (fun a b => pairLt (eventPair a) (eventPair b)) := by
  have hne : l.Pairwise (fun a b => eventPair a ≠ eventPair b) :=
    List.pairwise_map.mp hnd
  exact (hle.and hne).imp (fun h => pairLt_of_le_ne h.1 h.2)

/-- The weak pair order is reflexive. -/
theorem cursorPairLe_refl (a : Nat × Nat) : cursorPairLe a a = true := by
  obtain ⟨a1, a2⟩ := a
  simp [cursorPairLe]

/-- An event passing the cursor filter sits strictly after the cursor pair,
provided its cursor timestamp agrees with its `ts` field. -/
theorem pairLt_since_of_passes (p : Nat × Nat) (e : RuntimeEvent)
    (hwf_e : e.cursor.ts = e.ts) (hp : passesCursor p e) :
    pairLt p (eventPair e) := by
  obtain ⟨p1, p2⟩ := p
  simp only [passesCursor] at hp
  simp only [pairLt, eventPair, hwf_e]
  omega

/-- Explicit form of the `get_runtime_events` response. -/
theorem get_runtime_events_eq (store : List (String × RuntimeEvent))
    (sc : Option Cursor) (limit : Nat) (tf : Option (List String))
    (now : Nat) :
    get_runtime_events store sc limit tf now =
      { items := sortLe (fun a b => cursorPairLe (eventPair a) (eventPair b))
          (collectEvents (scanEvents store) (sincePair sc).1 (sincePair sc).2
            tf limit []),
        next_cursor :=
          match (sortLe (fun a b => cursorPairLe (eventPair a) (eventPair b))
            (collectEvents (scanEvents store) (sincePair sc).1
              (sincePair sc).2 tf limit [])).getLast? with
          | some last => generate_cursor last.cursor.ts (last.cursor.seq + 1)
          | none =>
            match sc with
            | some c => c
            | none => generate_cursor now 0,
        has_more :=
          decide ((sortLe (fun a b => cursorPairLe (eventPair a)
            (eventPair b)) (collectEvents (scanEvents store) (sincePair sc).1
              (sincePair sc).2 tf limit [])).length = limit) } := rfl

/-- Single-call pagination facts: every returned item comes from the store
and sits strictly between the supplied cursor and the returned next cursor;
the batch is sorted; the next cursor moves strictly forward on a non-empty
batch; distinct stored pairs give distinct returned pairs. -/
theorem get_runtime_events_step (store : List (String × RuntimeEvent))
    (sc : Option Cursor) (limit : Nat) (tf : Option (List String))
    (now : Nat)
    (hwf : ∀ kv ∈ store, kv.2.cursor.ts = kv.2.ts) :
    (∀ e ∈ (get_runtime_events store sc limit tf now).items,
      (∃ k, (k, e) ∈ store) ∧ pairLt (sincePair sc) (eventPair e)) ∧
    ((get_runtime_events store sc limit tf now).items.Pairwise
      (fun a b => cursorPairLe (eventPair a) (eventPair b) = true)) ∧
    (∀ e ∈ (get_runtime_events store sc limit tf now).items,
      pairLt (eventPair e)
        ((get_runtime_events store sc limit tf now).next_cursor.ts,
         (get_runtime_events store sc limit tf now).next_cursor.seq)) ∧
    ((get_runtime_events store sc limit tf now).items ≠ [] →
      pairLt (sincePair sc)
        ((get_runtime_events store sc limit tf now).next_cursor.ts,
         (get_runtime_events store sc limit tf now).next_cursor.seq)) ∧
    ((store.map (fun kv => eventPair kv.2)).Nodup →
      ((get_runtime_events store sc limit tf now).items.map
        eventPair).Nodup) := by
  rw [get_runtime_events_eq]
  set collected := collectEvents (scanEvents store) (sincePair sc).1
    (sincePair sc).2 tf limit [] with hcol
  set sorted := sortLe (fun a b => cursorPairLe (eventPair a) (eventPair b))
    collected with hsorted
  have hperm : sorted.Perm collected := sortLe_perm _ _
  have hscanmem : ∀ (k : String) (e : RuntimeEvent),
      (k, e) ∈ scanEvents store → (k, e) ∈ store := by
    intro k e hk
    have h1 : (k, e) ∈ (store.filter
        (fun kv => strIsPrefixOf "runtime_event_" kv.1)) :=
      (sortLe_perm _ _).mem_iff.mp hk
    exact (List.mem_filter.mp h1).1
  have hmem : ∀ e ∈ sorted, (∃ k, (k, e) ∈ store) ∧
      pairLt (sincePair sc) (eventPair e) := by
    intro e he
    have he' : e ∈ collected := hperm.mem_iff.mp he
    rcases collectEvents_mem _ _ _ _ _ _ _ he' with h | ⟨⟨k, hk⟩, hp⟩
    · simp at h
    · have hst : (k, e) ∈ store := hscanmem k e hk
      have hwfe : e.cursor.ts = e.ts := hwf (k, e) hst
      refine ⟨⟨k, hst⟩, ?_⟩
      have : pairLt ((sincePair sc).1, (sincePair sc).2) (eventPair e) :=
        pairLt_since_of_passes _ e hwfe hp
      simpa using this
  have hpw : sorted.Pairwise
      (fun a b => cursorPairLe (eventPair a) (eventPair b) = true) :=
    sortLe_sorted _ (fun a b => cursorPairLe_total (eventPair a) (eventPair b))
      (fun a b c hab hbc =>
        cursorPairLe_trans (eventPair a) (eventPair b) (eventPair c) hab hbc)
      collected
  refine ⟨hmem, hpw, ?_, ?_, ?_⟩
  · intro e he
    have hne : sorted ≠ [] := List.ne_nil_of_mem he
    obtain ⟨x, hx⟩ : ∃ x, sorted.getLast? = some x := by
      cases hl : sorted.getLast? with
      | none => exact absurd (List.getLast?_eq_none_iff.mp hl) hne
      | some x => exact ⟨x, rfl⟩
    rw [hx]
    rcases pairwise_rel_getLast _ sorted hpw x hx e he with rfl | hle
    · exact pairLt_succ_of_le (cursorPairLe_refl _)
    · exact pairLt_succ_of_le hle
  · intro hne
    obtain ⟨x, hx⟩ : ∃ x, sorted.getLast? = some x := by
      cases hl : sorted.getLast? with
      | none => exact absurd (List.getLast?_eq_none_iff.mp hl) hne
      | some x => exact ⟨x, rfl⟩
    rw [hx]
    have hxmem : x ∈ sorted := getLast?_mem_velophil _ x hx
    exact pairLt_trans (hmem x hxmem).2
      (pairLt_succ_of_le (cursorPairLe_refl _))
  · intro hndstore
    obtain ⟨s, hs, hsub⟩ := collectEvents_sublist (scanEvents store)
      (sincePair sc).1 (sincePair sc).2 tf limit []
    have hcs : collected = s := by rw [hcol, hs]; rfl
    have hmap1 : (sorted.map eventPair).Perm (s.map eventPair) :=
      (hperm.map eventPair).trans (by rw [hcs])
    have hsub2 : (s.map eventPair).Sublist
        ((scanEvents store).map (fun kv => eventPair kv.2)) := by
      have := hsub.map eventPair
      rwa [List.map_map] at this
    have hscansub : ((scanEvents store).map
        (fun kv => eventPair kv.2)).Nodup := by
      have hp2 : ((scanEvents store).map (fun kv => eventPair kv.2)).Perm
          ((store.filter (fun kv => strIsPrefixOf "runtime_event_"
            kv.1)).map (fun kv => eventPair kv.2)) :=
        (sortLe_perm _ _).map _
      have hsub3 : ((store.filter (fun kv => strIsPrefixOf "runtime_event_"
          kv.1)).map (fun kv => eventPair kv.2)).Sublist
          (store.map (fun kv => eventPair kv.2)) :=
        (List.filter_sublist _).map _
      exact hp2.nodup_iff.mpr (hndstore.sublist hsub3)
    exact hmap1.nodup_iff.mpr (hscansub.sublist hsub2)

/-- Draining the event log never goes backwards: across any number of
`list` calls chained through `next_cursor`, the returned events have strictly
increasing `(ts, seq)` pairs and all sit strictly after the starting
cursor. -/
theorem drainEvents_forward (store : List (String × RuntimeEvent))
    (now : Nat)
    (hwf : ∀ kv ∈ store, kv.2.cursor.ts = kv.2.ts)
    (hnd : (store.map (fun kv => eventPair kv.2)).Nodup) :
    ∀ (limit : Nat) (tf : Option (List String)) (fuel : Nat)
      (cursor : Option Cursor),
      (drainEvents store limit tf now cursor fuel).Pairwise
        (fun a b => pairLt (eventPair a) (eventPair b)) ∧
      (∀ e ∈ drainEvents store limit tf now cursor fuel,
        pairLt (sincePair cursor) (eventPair e)) := by
  intro limit tf fuel
  induction fuel with
  | zero =>
    intro cursor
    exact ⟨by simp [drainEvents], fun e he => by simp [drainEvents] at he⟩
  | succ k ih =>
    intro cursor
    obtain ⟨hmem, hpw, hbefore, hforward, hndit⟩ :=
      get_runtime_events_step store cursor limit tf now hwf
    by_cases hemp :
        (get_runtime_events store cursor limit tf now).items.isEmpty = true
    · exact ⟨by simp [drainEvents, hemp],
        fun e he => by simp [drainEvents, hemp] at he⟩
    · have hdrain : drainEvents store limit tf now cursor (k + 1) =
          (get_runtime_events store cursor limit tf now).items ++
          drainEvents store limit tf now
            (some (get_runtime_events store cursor limit tf now).next_cursor)
            k := by
        simp [drainEvents, hemp]
      obtain ⟨ihpw, ihfw⟩ :=
        ih (some (get_runtime_events store cursor limit tf now).next_cursor)
      have hnil :
          (get_runtime_events store cursor limit tf now).items ≠ [] := by
        intro h
        rw [h] at hemp
        simp at hemp
      have hfw := hforward hnil
      constructor
      · rw [hdrain, List.pairwise_append]
        refine ⟨pairwise_pairLt_of_sorted _ hpw (hndit hnd), ihpw, ?_⟩
        intro a ha b hb
        exact pairLt_trans (hbefore a ha) (ihfw b hb)
      · intro e he
        rw [hdrain] at he
        rcases List.mem_append.mp he with h | h
        · exact (hmem e h).2
        · exact pairLt_trans hfw (ihfw e h)

/-- When no scanned event passes the cursor filter, the scan loop returns the
accumulator unchanged. -/
theorem collectEvents_all_fail :
    ∀ (l : List (String × RuntimeEvent)) (ts0 seq0 : Nat)
      (tf : Option (List String)) (lim : Nat) (acc : List RuntimeEvent),
      (∀ kv ∈ l, ¬ passesCursor (ts0, seq0) kv.2) →
      collectEvents l ts0 seq0 tf lim acc = acc := by
  intro l ts0 seq0 tf lim
  induction l with
  | nil => intro acc _; rfl
  | cons kv rest ih =>
    obtain ⟨k, ev⟩ := kv
    intro acc hfail
    have hh := hfail (k, ev) (List.mem_cons_self _ _)
    simp only [passesCursor] at hh
    simp only [collectEvents]
    rw [if_neg hh]
    exact ih acc (fun kv hkv => hfail kv (List.mem_cons_of_mem _ hkv))

/-- With `limit = 1` and no type filter, the scan loop returns exactly the
first passing event. -/
theorem collectEvents_first :
    ∀ (done : List (String × RuntimeEvent)) (hk : String)
      (he : RuntimeEvent) (rest : List (String × RuntimeEvent))
      (ts0 seq0 : Nat),
      (∀ kv ∈ done, ¬ passesCursor (ts0, seq0) kv.2) →
      passesCursor (ts0, seq0) he →
      collectEvents (done ++ (hk, he) :: rest) ts0 seq0 none 1 [] =
        [he] := by
  intro done
  induction done with
  | nil =>
    intro hk he rest ts0 seq0 _ hpass
    simp only [passesCursor] at hpass
    simp only [List.nil_append, collectEvents]
    rw [if_pos hpass, if_neg (by simp [skippedByType])]
    simp
  | cons d ds ih =>
    obtain ⟨dk, dv⟩ := d
    intro hk he rest ts0 seq0 hfail hpass
    have hh := hfail (dk, dv) (List.mem_cons_self _ _)
    simp only [passesCursor] at hh
    simp only [List.cons_append, collectEvents]
    rw [if_neg hh]
    exact ih hk he rest ts0 seq0
      (fun kv hkv => hfail kv (List.mem_cons_of_mem _ hkv)) hpass

/-- Completeness of the `limit = 1` drain on a store whose scan order equals
its emission order and whose timestamps strictly increase: every pending
event is returned, in order. -/
theorem drainEvents_complete_aux (store : List (String × RuntimeEvent))
    (now : Nat)
    (hwf : ∀ kv ∈ store, kv.2.cursor.ts = kv.2.ts)
    (hscan : scanEvents store = store)
    (hts : store.Pairwise (fun kv kv' => kv.2.ts < kv'.2.ts)) :
    ∀ (pending done : List (String × RuntimeEvent))
      (cursor : Option Cursor) (fuel : Nat),
      store = done ++ pending →
      (∀ kv ∈ done, ¬ passesCursor (sincePair cursor) kv.2) →
      (∀ kv ∈ pending, passesCursor (sincePair cursor) kv.2) →
      pending.length < fuel →
      drainEvents store 1 none now cursor fuel =
        pending.map (fun kv => kv.2) := by
  intro pending
  induction pending with
  | nil =>
    intro done cursor fuel hsplit hfail _ hfuel
    rw [List.append_nil] at hsplit
    cases fuel with
    | zero => omega
    | succ f =>
      have hcol : collectEvents (scanEvents store) (sincePair cursor).1
          (sincePair cursor).2 none 1 [] = [] := by
        rw [hscan]
        refine collectEvents_all_fail store _ _ none 1 [] ?_
        intro kv hkv
        rw [hsplit] at hkv
        exact hfail kv hkv
      have hitems : (get_runtime_events store cursor 1 none now).items
          = [] := by
        rw [get_runtime_events_eq]
        simp [hcol, sortLe]
      simp [drainEvents, hitems]
  | cons hd rest ih =>
    obtain ⟨hk, he⟩ := hd
    intro done cursor fuel hsplit hfail hpassAll hfuel
    cases fuel with
    | zero => simp at hfuel
    | succ f =>
      have hpass : passesCursor (sincePair cursor) he :=
        hpassAll (hk, he) (List.mem_cons_self _ _)
      have hcol : collectEvents (scanEvents store) (sincePair cursor).1
          (sincePair cursor).2 none 1 [] = [he] := by
        rw [hscan, hsplit]
        exact collectEvents_first done hk he rest _ _ hfail hpass
      have hitems : (get_runtime_events store cursor 1 none now).items
          = [he] := by
        rw [get_runtime_events_eq]
        simp [hcol, sortLe, insertLe]
      have hnext : (get_runtime_events store cursor 1 none now).next_cursor
          = generate_cursor he.cursor.ts (he.cursor.seq + 1) := by
        rw [get_runtime_events_eq]
        simp [hcol, sortLe, insertLe]
      have hhe_mem : (hk, he) ∈ store := by
        rw [hsplit]
        simp
      have hwfe : he.cursor.ts = he.ts := hwf _ hhe_mem
      have hcross : ∀ kv ∈ done, kv.2.ts < he.ts := by
        intro kv hkv
        have h := hts
        rw [hsplit] at h
        exact (List.pairwise_append.mp h).2.2 kv hkv (hk, he)
          (List.mem_cons_self _ _)
      have hrest : ∀ kv ∈ rest, he.ts < kv.2.ts := by
        have h := hts
        rw [hsplit] at h
        have h2 := (List.pairwise_append.mp h).2.1
        exact fun kv hkv => (List.pairwise_cons.mp h2).1 kv hkv
      have hdrain : drainEvents store 1 none now cursor (f + 1) =
          [he] ++ drainEvents store 1 none now
            (some (generate_cursor he.cursor.ts (he.cursor.seq + 1))) f := by
        simp [drainEvents, hitems, hnext]
      rw [hdrain]
      rw [ih (done ++ [(hk, he)])
        (some (generate_cursor he.cursor.ts (he.cursor.seq + 1))) f
        (by rw [hsplit, List.append_assoc]; rfl)
        ?_ ?_ (by simpa using hfuel)]
      · simp
      · intro kv hkv
        rcases List.mem_append.mp hkv with h | h
        · have hlt := hcross kv h
          simp only [sincePair, parse_cursor, generate_cursor, passesCursor]
          rw [hwfe]
          omega
        · simp only [List.mem_singleton] at h
          subst h
          simp only [sincePair, parse_cursor, generate_cursor, passesCursor]
          rw [hwfe]
          omega
      · intro kv hkv
        have hlt := hrest kv hkv
        simp only [sincePair, parse_cursor, generate_cursor, passesCursor]
        rw [hwfe]
        omega

/-- C3 counterexample.  Two events emitted in the same millisecond (`ts = 5`,
sequences 0 and 1): draining with `limit = 1` returns only the first one —
the `next_cursor` encodes `seq + 1` but the filter demands `seq > since_seq`,
so the second event is skipped and never returned. -/
theorem drain_limit_one_skips_event :
    sameTsStore.length = 2 ∧
    sameTsStore.map (fun kv => kv.2.id) = ["A", "B"] ∧
    (drainEvents sameTsStore 1 none 99 none 5).map RuntimeEvent.id
      = ["A"] := by
  refine ⟨rfl, by decide, by decide⟩

/-- C3 (amended).  For any store of emitted events (cursor timestamps agree
with the event timestamps, `(ts, seq)` pairs distinct): (1) chaining `list`
calls through `next_cursor` never returns an already-seen event — the drained
output has strictly increasing `(ts, seq)` pairs, all strictly after the
starting cursor, for every limit and type filter; (2) when additionally the
scan (key) order equals the emission order, timestamps strictly increase and
are positive, draining with `limit = 1` returns every emitted event exactly
once, in emission order. -/
theorem event_pagination (store : List (String × RuntimeEvent)) (now : Nat)
    (hwf : ∀ kv ∈ store, kv.2.cursor.ts = kv.2.ts)
    (hnd : (store.map (fun kv => eventPair kv.2)).Nodup) :
    (∀ (limit : Nat) (tf : Option (List String)) (fuel : Nat)
      (cursor : Option Cursor),
      (drainEvents store limit tf now cursor fuel).Pairwise
        (fun a b => pairLt (eventPair a) (eventPair b)) ∧
      (∀ e ∈ drainEvents store limit tf now cursor fuel,
        pairLt (sincePair cursor) (eventPair e))) ∧
    (scanEvents store = store →
     store.Pairwise (fun kv kv' => kv.2.ts < kv'.2.ts) →
     (∀ kv ∈ store, 0 < kv.2.ts) →
     ∀ fuel, store.length < fuel →
       drainEvents store 1 none now none fuel =
         store.map (fun kv => kv.2)) := by
  constructor
  · exact drainEvents_forward store now hwf hnd
  · intro hscan hts hpos fuel hfuel
    refine drainEvents_complete_aux store now hwf hscan hts store [] none
      fuel rfl (by simp) ?_ hfuel
    intro kv hkv
    simp only [sincePair, passesCursor]
    exact Or.inl (hpos kv hkv)

/-- Witness for C3's amended pagination: three events with strictly
increasing timestamps drain completely and in order with `limit = 1`. -/
theorem event_pagination_witness :
    (∀ kv ∈ increasingTsStore, kv.2.cursor.ts = kv.2.ts) ∧
    (increasingTsStore.map (fun kv => eventPair kv.2)).Nodup ∧
    (scanEvents increasingTsStore = increasingTsStore) ∧
    increasingTsStore.Pairwise (fun kv kv' => kv.2.ts < kv'.2.ts) ∧
    (∀ kv ∈ increasingTsStore, 0 < kv.2.ts) ∧
    increasingTsStore.length < 5 ∧
    ((drainEvents increasingTsStore 1 none 99 none 5).Pairwise
      (fun a b => pairLt (eventPair a) (eventPair b))) ∧
    (drainEvents increasingTsStore 1 none 99 none 5 =
      increasingTsStore.map (fun kv => kv.2)) :=
  ⟨by decide, by decide, by decide, by decide, by decide, by decide,
   ((event_pagination increasingTsStore 99 (by decide) (by decide)).1
     1 none 5 none).1,
   (event_pagination increasingTsStore 99 (by decide) (by decide)).2
     (by decide) (by decide) (by decide) 5 (by decide)⟩

end Velophil
